import Mathlib

/- Verification development for the `recurrent` repository: a natural-language
   recurrence parser (`RecurringEvent.parse`) and formatter (`RecurringEvent.format`),
   plus a Russian-input adapter (`RecurringEventAuto`).  The repository ships the
   adapter, translator and the exhaustive test suite; the core parser/formatter
   module itself is not among the shipped sources, so the core is modelled from
   the specification (and cross-checked against the shipped test fixtures), while
   the adapter and translator are embedded from their source files. -/

namespace Recurrent

/-- Characters of a string literal; used to write token constants. -/
def tok (s : String) : List Char := s.data

/-- Boolean test that the first list occurs at the start of the second. -/
def starts : List Char → List Char → Bool
  | [], _ => true
  | _ :: _, [] => false
  | a :: as, b :: bs => (a == b) && starts as bs

/-- Tokenizer worker: accumulate the current (reversed) run of non-separator
characters while scanning. -/
def wordsAcc (sep : Char) (cur : List Char) : List Char → List (List Char)
  | [] => if cur.isEmpty then [] else [cur.reverse]
  | c :: cs =>
    if c = sep then
      if cur.isEmpty then wordsAcc sep [] cs else cur.reverse :: wordsAcc sep [] cs
    else wordsAcc sep (c :: cur) cs

/-- Split a character list into maximal runs of non-separator characters
(empty runs are dropped, as the normalizer collapses whitespace). -/
def wordsBy (sep : Char) (l : List Char) : List (List Char) :=
  wordsAcc sep [] l

/-- Join token lists with a separator character between consecutive tokens. -/
def joinBy (sep : Char) : List (List Char) → List Char
  | [] => []
  | [t] => t
  | t :: ts => t ++ sep :: joinBy sep ts

/-- Modelled from the spec: the case-folding part of the Lexical Normalizer.
Folds case and deletes commas and apostrophes before tokenization. -/
def clean (l : List Char) : List Char :=
  (l.map Char.toLower).filter (fun c => !(c == ',' || c.toNat == 39))

/-- Token form of the carrier-phrase head recognized by the normalizer. -/
def carrierHead : List (List Char) := [tok "im", tok "available"]

/-- Token form of the carrier-phrase tail recognized by the normalizer. -/
def carrierTail : List (List Char) :=
  [tok "would", tok "work", tok "best", tok "for", tok "me"]

/-- Fuelled worker for carrier-phrase stripping; each firing step shortens the
token list by at least two, so fuel equal to the length reaches the fixpoint. -/
def stripAux : Nat → List (List Char) → List (List Char)
  | 0, ts => ts
  | f + 1, ts =>
    if ts.take 2 = carrierHead then stripAux f (ts.drop 2)
    else if 5 ≤ ts.length ∧ ts.drop (ts.length - 5) = carrierTail then
      stripAux f (ts.take (ts.length - 5))
    else ts

/-- Modelled from the spec: carrier-phrase stripping of the Lexical Normalizer
("I'm available …", "… would work best for me"), iterated to a fixpoint. -/
def stripCT (ts : List (List Char)) : List (List Char) :=
  stripAux ts.length ts

/-- Modelled from the spec: the Lexical Normalizer pipeline — fold case, delete
punctuation, split into tokens, strip carrier phrases. -/
def normalize (s : String) : List (List Char) :=
  stripCT (wordsBy ' ' (clean s.data))

/-- Decimal digit to its character. -/
def digitChar : Nat → Char
  | 0 => '0' | 1 => '1' | 2 => '2' | 3 => '3' | 4 => '4'
  | 5 => '5' | 6 => '6' | 7 => '7' | 8 => '8' | _ => '9'

/-- Character to decimal digit value, when it is one. -/
def charVal (c : Char) : Option Nat :=
  if c = '0' then some 0 else if c = '1' then some 1 else if c = '2' then some 2
  else if c = '3' then some 3 else if c = '4' then some 4 else if c = '5' then some 5
  else if c = '6' then some 6 else if c = '7' then some 7 else if c = '8' then some 8
  else if c = '9' then some 9 else none

/-- Digit values of a character list, when every character is a decimal digit. -/
def digitsOf : List Char → Option (List Nat)
  | [] => some []
  | c :: cs =>
    match charVal c, digitsOf cs with
    | some d, some ds => some (d :: ds)
    | _, _ => none

/-- Parse a non-empty all-digit token as a natural number (big-endian). -/
def parseNat (l : List Char) : Option Nat :=
  match digitsOf l with
  | some ds => if ds.isEmpty then none else some (Nat.ofDigits 10 ds.reverse)
  | none => none

/-- Little-endian decimal digits with structural fuel (fuel at least the number
itself always suffices). -/
def decAux : Nat → Nat → List Nat
  | 0, _ => []
  | f + 1, n => if n = 0 then [] else n % 10 :: decAux f (n / 10)

/-- Render a natural number in decimal (big-endian). -/
def dec (n : Nat) : List Char :=
  if n = 0 then ['0'] else (decAux n n).reverse.map digitChar

/-- Left-pad a token with zeros to at least the given width. -/
def padTo (k : Nat) (l : List Char) : List Char :=
  List.replicate (k - l.length) '0' ++ l

/-- A naive calendar date, as the data model's absolute date. -/
structure Date where
  y : Nat
  m : Nat
  d : Nat
deriving DecidableEq, Repr

/-- A naive timestamp: the parser's AbsoluteResult. -/
structure DateTime where
  date : Date
  hh : Nat
  mi : Nat
  ss : Nat
deriving DecidableEq, Repr

/-- Gregorian leap-year test. -/
def isLeap (y : Nat) : Bool :=
  (y % 4 == 0 && y % 100 != 0) || y % 400 == 0

/-- Days in a month of a given year. -/
def dim (y m : Nat) : Nat :=
  if m = 2 then (if isLeap y then 29 else 28)
  else if m = 4 || m = 6 || m = 9 || m = 11 then 30
  else 31

/-- A structurally valid calendar date. -/
def ValidDate (x : Date) : Prop :=
  1 ≤ x.m ∧ x.m ≤ 12 ∧ 1 ≤ x.d ∧ x.d ≤ dim x.y x.m

instance : DecidablePred ValidDate := fun x => by
  unfold ValidDate
  infer_instance

/-- Successor day in the calendar. -/
def nextDay (x : Date) : Date :=
  if x.d < dim x.y x.m then ⟨x.y, x.m, x.d + 1⟩
  else if x.m < 12 then ⟨x.y, x.m + 1, 1⟩
  else ⟨x.y + 1, 1, 1⟩

/-- Add a number of days by iterating the successor-day map. -/
def addDays (n : Nat) (x : Date) : Date :=
  nextDay^[n] x

/-- Target (year, month) after adding n calendar months. -/
def monthShift (x : Date) (n : Nat) : Nat × Nat :=
  ((12 * x.y + (x.m - 1) + n) / 12, (12 * x.y + (x.m - 1) + n) % 12 + 1)

/-- Modelled from the spec: Duration-to-Until month/year arithmetic — add
calendar months; if the day-of-month does not exist in the target month, clamp
forward to the 1st of the following month. -/
def addMonths (n : Nat) (x : Date) : Date :=
  let p := monthShift x n
  if x.d ≤ dim p.1 p.2 then ⟨p.1, p.2, x.d⟩
  else if p.2 = 12 then ⟨p.1 + 1, 1, 1⟩
  else ⟨p.1, p.2 + 1, 1⟩

/-- Days contributed by the full months before month m in year y. -/
def monthDaysBefore (y m : Nat) : Nat :=
  (List.range (m - 1)).foldl (fun acc i => acc + dim y (i + 1)) 0

/-- Ordinal day number of a date in the proleptic Gregorian calendar. -/
def toDayNumber (x : Date) : Nat :=
  365 * (x.y - 1) + (x.y - 1) / 4 - (x.y - 1) / 100 + (x.y - 1) / 400 +
    monthDaysBefore x.y x.m + x.d

/-- Weekday of a date, 0 = Monday … 6 = Sunday. -/
def weekday (x : Date) : Nat :=
  (toDayNumber x + 6) % 7

/-- Association lookup over token tables. -/
def lookupTok : List (List Char × Nat) → List Char → Option Nat
  | [], _ => none
  | (k, v) :: r, t => if t = k then some v else lookupTok r t

/-- Modelled from the spec: weekday vocabulary (full names, plurals,
abbreviations), 0 = Monday … 6 = Sunday. -/
def wdTbl : List (List Char × Nat) :=
  [(tok "monday", 0), (tok "mondays", 0), (tok "mon", 0),
   (tok "tuesday", 1), (tok "tuesdays", 1), (tok "tue", 1), (tok "tues", 1),
   (tok "wednesday", 2), (tok "wednesdays", 2), (tok "wed", 2),
   (tok "thursday", 3), (tok "thursdays", 3), (tok "thu", 3), (tok "thur", 3), (tok "thurs", 3),
   (tok "friday", 4), (tok "fridays", 4), (tok "fri", 4),
   (tok "saturday", 5), (tok "saturdays", 5), (tok "sat", 5),
   (tok "sunday", 6), (tok "sundays", 6), (tok "sun", 6)]

/-- Single-weekday token to its index. -/
def wdSingle (t : List Char) : Option Nat := lookupTok wdTbl t

/-- Modelled from the spec: month-name vocabulary (full names, abbreviations). -/
def monthTbl : List (List Char × Nat) :=
  [(tok "january", 1), (tok "jan", 1), (tok "february", 2), (tok "feb", 2),
   (tok "march", 3), (tok "mar", 3), (tok "april", 4), (tok "apr", 4),
   (tok "may", 5), (tok "june", 6), (tok "jun", 6), (tok "july", 7), (tok "jul", 7),
   (tok "august", 8), (tok "aug", 8), (tok "september", 9), (tok "sep", 9), (tok "sept", 9),
   (tok "october", 10), (tok "oct", 10), (tok "november", 11), (tok "nov", 11),
   (tok "december", 12), (tok "dec", 12)]

/-- Month-name token to its number. -/
def monthTok (t : List Char) : Option Nat := lookupTok monthTbl t

/-- Recurrence frequency of the data model (the fragment the claims exercise). -/
inductive Freq where
  | daily
  | weekly
  | monthly
  | yearly
deriving DecidableEq, Repr

/-- Bare frequency-word token. -/
def freqTok (t : List Char) : Option Freq :=
  if t = tok "daily" then some .daily
  else if t = tok "weekly" then some .weekly
  else if t = tok "monthly" then some .monthly
  else if t = tok "yearly" then some .yearly
  else none

/-- Weekday-set item token to a weekday bitmask (bit 0 = Monday):
a single weekday, "weekend" = {Sat, Sun}, "weekdays" = {Mon … Fri}. -/
def itemMask (t : List Char) : Option Nat :=
  match wdSingle t with
  | some i => some (1 <<< i)
  | none =>
    if t = tok "weekend" then some 96
    else if t = tok "weekdays" then some 31
    else none

/-- Modelled from the spec: "A and B" unions day sets — an and-separated
item list to the union bitmask. -/
def andItems : List (List Char) → Option Nat
  | [] => none
  | [t] => itemMask t
  | t :: a :: rest =>
    if a = tok "and" then (itemMask t).bind fun x => (andItems rest).map fun y => x ||| y
    else none

/-- Modelled from the spec: inclusive weekday range in week order, wrapping
around when the start index exceeds the end index. -/
def maskRange (i j : Nat) : Nat :=
  (List.range 7).foldl
    (fun a k =>
      if (if i ≤ j then i ≤ k && k ≤ j else i ≤ k || k ≤ j) then a ||| (1 <<< k) else a)
    0

/-- RFC-5545 code of a weekday index. -/
def wdCode (i : Nat) : List Char :=
  [tok "MO", tok "TU", tok "WE", tok "TH", tok "FR", tok "SA", tok "SU"].getD i (tok "MO")

/-- Weekday indices present in a bitmask, in week order. -/
def maskBits (m : Nat) : List Nat :=
  (List.range 7).filter (fun i => m.testBit i)

/-- Serialized BYDAY value of a weekday bitmask. -/
def bydayVal (m : Nat) : List Char :=
  joinBy ',' ((maskBits m).map wdCode)

/-- Modelled from the spec: the RecurrenceRule record, restricted to the fields
the verified fragment uses (`freq`, `interval`, `byday` as a weekday bitmask,
`until`); unset is `0` / `none`, never conflated with a set value. -/
structure Rule where
  freq : Freq
  interval : Nat
  byday : Nat
  untl : Option Date
deriving DecidableEq, Repr

/-- Rule with default interval 1 and no bound. -/
def mkRule (f : Freq) (mask : Nat) : Rule := ⟨f, 1, mask, none⟩

/-- Canonical daily-frequency phrasings collapsed by the normalizer. -/
def dailyForms : List (List (List Char)) :=
  [[tok "daily"], [tok "everyday"], [tok "every", tok "day"], [tok "each", tok "day"]]

/-- An "every"-headed and-joined weekday set as a weekly rule. -/
def everyList (rest : List (List Char)) : Option Rule :=
  (andItems rest).bind fun m => if m = 0 then none else some (mkRule .weekly m)

/-- A weekday range "<wd> through <wd>" as a weekly rule. -/
def throughRange (a c : List Char) : Option Rule :=
  (wdSingle a).bind fun i => (wdSingle c).map fun j => mkRule .weekly (maskRange i j)

/-- Modelled from the spec: the Grammar Matcher's base recurring families, in
priority order — daily synonyms; bare frequency words (interval 1, nothing else
set); a weekday range with wraparound; an "every"-headed and-joined weekday
set. A family must consume all tokens; quantified bare-frequency phrases
("twice weekly") match nothing and yield no rule. -/
def parseBase (ts : List (List Char)) : Option Rule :=
  if ts ∈ dailyForms then some (mkRule .daily 0)
  else
    match ts with
    | [t] => (freqTok t).map fun f => mkRule f 0
    | [a, b, c] => if b = tok "through" then throughRange a c else none
    | t :: rest => if t = tok "every" then everyList rest else none
    | _ => none

/-- Split a token list at the first occurrence of a given token. -/
def splitAtTok (x : List Char) : List (List Char) → Option (List (List Char) × List (List Char))
  | [] => none
  | t :: ts =>
    if t = x then some ([], ts)
    else
      match splitAtTok x ts with
      | some (b, r) => some (t :: b, r)
      | none => none

/-- Duration units of the Duration-to-Until Resolver. -/
inductive DUnit where
  | days
  | weeks
  | months
  | years
deriving DecidableEq, Repr

/-- Duration-unit token (singular or plural). -/
def unitTok (t : List Char) : Option DUnit :=
  if t = tok "day" ∨ t = tok "days" then some .days
  else if t = tok "week" ∨ t = tok "weeks" then some .weeks
  else if t = tok "month" ∨ t = tok "months" then some .months
  else if t = tok "year" ∨ t = tok "years" then some .years
  else none

/-- Modelled from the spec: Duration-to-Until arithmetic — weeks are exact 7×N
day addition, months and years add calendar units with forward clamping. -/
def addUnits (u : DUnit) (n : Nat) (x : Date) : Date :=
  match u with
  | .days => addDays n x
  | .weeks => addDays (7 * n) x
  | .months => addMonths n x
  | .years => addMonths (12 * n) x

/-- Modelled from the spec: the duration tail of "for the next N units" (N
defaults to 1 when only a singular unit word is given). -/
def parseDur (x : Date) : List (List Char) → Option Date
  | [t] =>
    match unitTok t with
    | some u => some (addUnits u 1 x)
    | none => none
  | [nt, t] =>
    match parseNat nt, unitTok t with
    | some n, some u => some (addUnits u n x)
    | _, _ => none
  | _ => none

/-- Clock-time token "Ham"/"Hpm" (H in 1..12) to a 24-hour value. -/
def parseTimeTok (t : List Char) : Option Nat :=
  let n := t.length
  if n < 3 then none
  else
    let pre := t.take (n - 2)
    let ap := t.drop (n - 2)
    if ap = tok "am" then
      match parseNat pre with
      | some h => if 1 ≤ h ∧ h ≤ 12 then some (if h = 12 then 0 else h) else none
      | none => none
    else if ap = tok "pm" then
      match parseNat pre with
      | some h => if 1 ≤ h ∧ h ≤ 12 then some (if h = 12 then 12 else h + 12) else none
      | none => none
    else none

/-- Day-of-month token: a numeral with an optional ordinal ending. -/
def dayNumTok (t : List Char) : Option Nat :=
  let ds := t.takeWhile (fun c => (charVal c).isSome)
  let rest := t.dropWhile (fun c => (charVal c).isSome)
  if rest = [] ∨ rest = tok "st" ∨ rest = tok "nd" ∨ rest = tok "rd" ∨ rest = tok "th" then
    parseNat ds
  else none

/-- Structural validity guard of the Absolute Date/Time Resolver. -/
def mkDate (y m d : Nat) : Option Date :=
  if 1 ≤ d ∧ d ≤ dim y m then some ⟨y, m, d⟩ else none

/-- Clock time carried by the last token, when it is a time token. -/
def timeOf (ts : List (List Char)) : Option Nat :=
  ts.getLast?.bind parseTimeTok

/-- Drop an optional leading weekday-name token. -/
def stripWd (ts : List (List Char)) : List (List Char) :=
  match ts with
  | w :: rest => if (wdSingle w).isSome then rest else w :: rest
  | [] => []

/-- Month-day[-year] fields of a literal date phrase, resolved and validated
(the year defaults to the Reference Clock's year). -/
def dateFields (refd : Date) (h : Nat) : List (List Char) → Option DateTime
  | [mt, dtk] =>
    (monthTok mt).bind fun m =>
      (dayNumTok dtk).bind fun d =>
        (mkDate refd.y m d).map fun x => ⟨x, h, 0, 0⟩
  | [mt, dtk, yt] =>
    (monthTok mt).bind fun m =>
      (dayNumTok dtk).bind fun d =>
        (parseNat yt).bind fun yy =>
          (mkDate yy m d).map fun x => ⟨x, h, 0, 0⟩
  | _ => none

/-- Modelled from the spec: literal calendar-date phrase — an optional leading
weekday name, a month name, a day numeral (optionally ordinal), an optional
year (defaulting to the Reference Clock's year) and an optional trailing clock
time; invalid dates are rejected. -/
def parseDatePhrase (refd : Date) (ts : List (List Char)) : Option DateTime :=
  dateFields refd ((timeOf ts).getD 0)
    (stripWd (if (timeOf ts).isSome then ts.dropLast else ts))

/-- Modelled from the spec: the Absolute Date/Time Resolver — relative day
expressions ("tomorrow", "next/this <weekday>") resolve against the Reference
Clock with the implicit 9:00 AM anchor of the calendar collaborator; literal
calendar dates resolve to midnight unless a clock time is given. -/
def parseAbs (refd : Date) (ts : List (List Char)) : Option DateTime :=
  match ts with
  | [t] =>
    if t = tok "tomorrow" then some ⟨addDays 1 refd, 9, 0, 0⟩
    else parseDatePhrase refd ts
  | [a, w] =>
    if a = tok "next" ∨ a = tok "this" then
      match wdSingle w with
      | some i => some ⟨addDays ((i + 7 - weekday refd) % 7) refd, 9, 0, 0⟩
      | none => parseDatePhrase refd ts
    else parseDatePhrase refd ts
  | _ => parseDatePhrase refd ts

/-- Date part of an absolute phrase, for "until" bounds. -/
def parseDateOnly (refd : Date) (ts : List (List Char)) : Option Date :=
  (parseAbs refd ts).map (fun x => x.date)

/-- Combine a base family with an explicit "until" date. -/
def withUntil (refd : Date) (p : List (List Char) × List (List Char)) : Option Rule :=
  (parseBase p.1).bind fun r =>
    (parseDateOnly refd p.2).map fun x => { r with untl := some x }

/-- Combine a base family with a "for the next N units" duration tail. -/
def durTail (refd : Date) (b : List (List Char)) : List (List Char) → Option Rule
  | t1 :: t2 :: dur =>
    if t1 = tok "the" ∧ t2 = tok "next" then
      (parseBase b).bind fun r =>
        (parseDur refd dur).map fun x => { r with untl := some x }
    else none
  | _ => none

/-- Modelled from the spec: the recurring-event families with their optional
"until <date>" clause or "for the next N units" duration tail. -/
def parseRecurring (refd : Date) (ts : List (List Char)) : Option Rule :=
  (splitAtTok (tok "until") ts).elim
    ((splitAtTok (tok "for") ts).elim (parseBase ts) (fun p => durTail refd p.1 p.2))
    (withUntil refd)

/-- Serialized FREQ value. -/
def freqU : Freq → List Char
  | .daily => tok "DAILY"
  | .weekly => tok "WEEKLY"
  | .monthly => tok "MONTHLY"
  | .yearly => tok "YEARLY"

/-- Serialized UNTIL value, YYYYMMDD. -/
def untilVal (x : Date) : List Char :=
  padTo 4 (dec x.y) ++ padTo 2 (dec x.m) ++ padTo 2 (dec x.d)

/-- Modelled from the spec: the Serializer — an `RRULE:` line with every set
field as KEY=VALUE, comma-joined multi-values. -/
def serialize (r : Rule) : List Char :=
  tok "RRULE:FREQ=" ++ freqU r.freq ++ tok ";INTERVAL=" ++ dec r.interval ++
    (if r.byday = 0 then [] else tok ";BYDAY=" ++ bydayVal r.byday) ++
    (match r.untl with
     | none => []
     | some x => tok ";UNTIL=" ++ untilVal x)

/-- Modelled from the spec: the ParseOutcome tagged union — serialized rule
text, an absolute timestamp, or no match. -/
inductive ParseOutcome where
  | rrule (s : String)
  | timestamp (x : DateTime)
  | noMatch
deriving DecidableEq, Repr

/-- Modelled from the spec: `parse` — normalize, run the recurring families
first, then the absolute resolver; anything not fully consumed by a family is
absent. -/
def RecurringEvent.parse (refd : Date) (s : String) : ParseOutcome :=
  ((parseRecurring refd (normalize s)).map
      (fun r => ParseOutcome.rrule (String.mk (serialize r)))).getD
    ((parseAbs refd (normalize s)).elim ParseOutcome.noMatch ParseOutcome.timestamp)

/-- Displayed weekday abbreviation. -/
def wdDisp (i : Nat) : List Char :=
  [tok "Mon", tok "Tue", tok "Wed", tok "Thu", tok "Fri", tok "Sat", tok "Sun"].getD i (tok "Mon")

/-- Displayed month abbreviation. -/
def monDisp (m : Nat) : List Char :=
  [tok "Jan", tok "Feb", tok "Mar", tok "Apr", tok "May", tok "Jun", tok "Jul", tok "Aug",
   tok "Sep", tok "Oct", tok "Nov", tok "Dec"].getD (m - 1) (tok "Jan")

/-- Display tokens of a date: weekday, month, day with comma, year. -/
def dateDispToks (x : Date) : List (List Char) :=
  [wdDisp (weekday x), monDisp x.m, dec x.d ++ [','], dec x.y]

/-- Display tokens of a clock time; omitted exactly when hour, minute and
second are all zero, with minutes and seconds rendered only when needed. -/
def timeDispTok (h mi s : Nat) : List (List Char) :=
  if h = 0 ∧ mi = 0 ∧ s = 0 then []
  else
    [dec (if h = 0 then 12 else if h > 12 then h - 12 else h) ++
      (if mi = 0 ∧ s = 0 then []
       else ':' :: padTo 2 (dec mi) ++ (if s = 0 then [] else ':' :: padTo 2 (dec s))) ++
      (if h < 12 then tok "am" else tok "pm")]

/-- Display tokens of a timestamp. -/
def dtDispToks (x : DateTime) : List (List Char) :=
  dateDispToks x.date ++ timeDispTok x.hh x.mi x.ss

/-- Weekday-set display items: a full Mon–Fri block collapses to "weekdays",
a full {Sat, Sun} block to "weekend". -/
def itemsDisp (m : Nat) : List (List Char) :=
  (if m &&& 31 = 31 then [tok "weekdays"] else (maskBits (m &&& 31)).map wdDisp) ++
    (if m &&& 96 = 96 then [tok "weekend"] else (maskBits (m &&& 96)).map wdDisp)

/-- Join display items with "and" tokens. -/
def joinAndToks : List (List Char) → List (List Char)
  | [] => []
  | [t] => [t]
  | t :: ts => t :: tok "and" :: joinAndToks ts

/-- Base English tokens of a daily or weekly rule. -/
def ruleBaseToks (f : Freq) (n mask : Nat) : List (List Char) :=
  match f with
  | .daily =>
    if n = 1 then [tok "daily"]
    else if n = 2 then [tok "every", tok "other", tok "day"]
    else [tok "every", dec n, tok "days"]
  | _ =>
    (if n = 1 then [tok "every"]
     else if n = 2 then [tok "every", tok "other", tok "week", tok "on"]
     else [tok "every", dec n, tok "weeks", tok "on"]) ++ joinAndToks (itemsDisp mask)

/-- English tokens of an "until" clause. -/
def untilToks : Option Date → List (List Char)
  | none => []
  | some x => tok "until" :: dateDispToks x

/-- Remainder of a character list after the first occurrence of a pattern. -/
def findAfter (pat : List Char) : List Char → Option (List Char)
  | [] => if starts pat [] then some [] else none
  | c :: tl =>
    if starts pat (c :: tl) then some ((c :: tl).drop pat.length) else findAfter pat tl

/-- Key of a KEY=VALUE field. -/
def kvKey (t : List Char) : List Char :=
  t.takeWhile (fun c => c != '=')

/-- Value of a KEY=VALUE field. -/
def kvVal (t : List Char) : List Char :=
  (t.dropWhile (fun c => c != '=')).drop 1

/-- First value bound to a key among serialized fields. -/
def getV : List (List Char) → List Char → Option (List Char)
  | [], _ => none
  | f :: r, k => if kvKey f = k then some (kvVal f) else getV r k

/-- RFC weekday codes for BYDAY parsing. -/
def codeTbl : List (List Char × Nat) :=
  [(tok "MO", 0), (tok "TU", 1), (tok "WE", 2), (tok "TH", 3), (tok "FR", 4),
   (tok "SA", 5), (tok "SU", 6)]

/-- A BYDAY token (optionally signed-ordinal-prefixed) to its weekday. -/
def bydayCode (t : List Char) : Option Nat :=
  lookupTok codeTbl (t.dropWhile (fun c => c == '+' || c == '-' || (charVal c).isSome))

/-- BYDAY value to a weekday bitmask; fails on any unrecognized token. -/
def parseBydayVal (v : List Char) : Option Nat :=
  let codes := wordsBy ',' v
  if codes.isEmpty then none
  else
    codes.foldl
      (fun acc t =>
        match acc, bydayCode t with
        | some a, some i => some (a ||| (1 <<< i))
        | _, _ => none)
      (some 0)

/-- Ordinal ending of a number ("st", "nd", "rd", "th"). -/
def ordSuf (n : Nat) : List Char :=
  if n % 100 / 10 = 1 then tok "th"
  else if n % 10 = 1 then tok "st"
  else if n % 10 = 2 then tok "nd"
  else if n % 10 = 3 then tok "rd"
  else tok "th"

/-- Display tokens of a signed-ordinal BYDAY code such as `+1FR`. -/
def bydayOrdToks (t : List Char) : Option (List (List Char)) :=
  let neg := starts (tok "-") t
  let t1 := if starts (tok "-") t || starts (tok "+") t then t.drop 1 else t
  let ds := t1.takeWhile (fun c => (charVal c).isSome)
  let core := t1.dropWhile (fun c => (charVal c).isSome)
  match parseNat ds, lookupTok codeTbl core with
  | some n, some i =>
    some ((if neg then
             if n = 1 then [tok "last"] else [dec n ++ ordSuf n, tok "to", tok "the", tok "last"]
           else [dec n ++ ordSuf n]) ++ [wdDisp i])
  | _, _ => none

/-- UNTIL value YYYYMMDD back to a date. -/
def parseUntilVal (v : List Char) : Option Date :=
  let n := v.length
  if n < 6 then none
  else
    match parseNat (v.take (n - 4)), parseNat ((v.drop (n - 4)).take 2), parseNat (v.drop (n - 2)) with
    | some yy, some mm, some dd => some ⟨yy, mm, dd⟩
    | _, _, _ => none

/-- The INTERVAL field's value, defaulting to 1; fail closed when it does not
parse. -/
def intervalOf (fields : List (List Char)) : Option Nat :=
  (getV fields (tok "INTERVAL")).elim (some 1) parseNat

/-- The UNTIL field's bound, when present; fail closed when malformed. -/
def untilOf (fields : List (List Char)) : Option (Option Date) :=
  (getV fields (tok "UNTIL")).elim (some none) (fun v => (parseUntilVal v).map some)

/-- English rendering of a WEEKLY rule from its BYDAY field; fail closed when
BYDAY is missing, empty, or holds an unrecognized token. -/
def renderWeekly (fields : List (List Char)) (n : Nat) (u : Option Date) :
    Option (List Char) :=
  (getV fields (tok "BYDAY")).bind fun bv =>
    (parseBydayVal bv).bind fun mask =>
      if mask = 0 then none
      else some (joinBy ' ' (ruleBaseToks .weekly n mask ++ untilToks u))

/-- English rendering of a MONTHLY rule; fail closed when both BYMONTHDAY and
BYDAY are missing. -/
def renderMonthly (fields : List (List Char)) (u : Option Date) : Option (List Char) :=
  match getV fields (tok "BYMONTHDAY"), getV fields (tok "BYDAY") with
  | none, none => none
  | some dv, _ =>
    (parseNat dv).map
      (fun d => joinBy ' '
        ([tok "every", tok "month", tok "on", tok "the", dec d ++ ordSuf d] ++ untilToks u))
  | none, some bv =>
    (bydayOrdToks bv).map
      (fun bt => joinBy ' ' (bt ++ [tok "of", tok "every", tok "month"] ++ untilToks u))

/-- English rendering of a YEARLY rule; fail closed when BYMONTHDAY, BYDAY and
BYMONTH are all missing. -/
def renderYearly (fields : List (List Char)) (u : Option Date) : Option (List Char) :=
  match getV fields (tok "BYMONTHDAY"), getV fields (tok "BYDAY"), getV fields (tok "BYMONTH") with
  | none, none, none => none
  | _, _, _ =>
    (match getV fields (tok "BYMONTH") with
     | some mv =>
       (parseNat mv).map
         (fun mm => joinBy ' ' ([tok "every", tok "year", tok "in", monDisp mm] ++ untilToks u))
     | none => some (joinBy ' ' ([tok "every", tok "year"] ++ untilToks u)))

/-- Modelled from the spec: the Formatter's tolerant field scan and English
rendering; fail closed when FREQ is missing or unrecognized or a frequency's
required fields are absent or unrecognized. -/
def formatFields (fields : List (List Char)) : Option (List Char) :=
  (getV fields (tok "FREQ")).bind fun fv =>
    (intervalOf fields).bind fun n =>
      (untilOf fields).bind fun u =>
        if fv = tok "DAILY" then some (joinBy ' ' (ruleBaseToks .daily n 0 ++ untilToks u))
        else if fv = tok "WEEKLY" then renderWeekly fields n u
        else if fv = tok "MONTHLY" then renderMonthly fields u
        else if fv = tok "YEARLY" then renderYearly fields u
        else none

/-- Formatter scan of raw RRULE text: everything after the first `RRULE:`,
split into `;`-separated fields. -/
def formatRRuleChars (l : List Char) : Option (List Char) :=
  (findAfter (tok "RRULE:") l).bind fun rest => formatFields (wordsBy ';' rest)

/-- Modelled from the spec: `format` — absent propagates, timestamps render as
canonical English, RRULE text renders tolerantly and passes through unchanged
when the scan fails closed. -/
def RecurringEvent.format : ParseOutcome → Option String
  | .noMatch => none
  | .timestamp x => some (String.mk (joinBy ' ' (dtDispToks x)))
  | .rrule s => (formatRRuleChars s.data).elim (some s) (fun out => some (String.mk out))

/-- Feed `format` output (absent or a string) back into `parse`. -/
def RecurringEvent.parseOpt (refd : Date) : Option String → ParseOutcome
  | none => .noMatch
  | some s => RecurringEvent.parse refd s

/-- Embedded from src/src/recurrent/recurrent_ru/translator.py: `is_ru` — a
regex search for one character in the ranges а-я (U+0430..U+044F) or А-Я
(U+0410..U+042F). -/
def is_ru (s : String) : Bool :=
  s.data.any
    (fun c => (0x430 ≤ c.toNat && c.toNat ≤ 0x44F) || (0x410 ≤ c.toNat && c.toNat ≤ 0x42F))

/-- Embedded from src/src/recurrent/recurrent_ru/ru_adapter.py:
`RecurringEventAuto.parse` — translate exactly when `is_ru` holds, then call
the base parser; the machine translator is an external collaborator, passed as
a function. -/
def RecurringEventAuto.parse (tr : String → String) (refd : Date) (s : String) : ParseOutcome :=
  RecurringEvent.parse refd (if is_ru s then tr s else s)

/-- Embedded from src/src/recurrent/recurrent_ru/translator.py:
`translate_ru_en` — with the lazily initialized global `ARGOS` state passed
explicitly (current state, result of `init_translator` if it were run);
returns the translated text and the new state, and returns the text unchanged
when no translator is available. -/
def translate_ru_en (argos init : Option (String → String)) (text : String) :
    String × Option (String → String) :=
  match argos with
  | some t => (t text, some t)
  | none =>
    match init with
    | none => (text, none)
    | some t => (t text, some t)

/-- The adapter's parse with the translator state made explicit. -/
def RecurringEventAuto.parseSt (argos init : Option (String → String)) (refd : Date)
    (s : String) : ParseOutcome × Option (String → String) :=
  if is_ru s then
    let r := translate_ru_en argos init s
    (RecurringEvent.parse refd r.1, r.2)
  else (RecurringEvent.parse refd s, argos)

/-- Linear month index (months since year 0), for stating calendar-shift laws. -/
def monthIdx (x : Date) : Nat :=
  12 * x.y + (x.m - 1)

/-- Canonical English rendering of a date, without a time segment. -/
def renderDateStr (x : Date) : String :=
  String.mk (joinBy ' ' (dateDispToks x))

/-- The relative day-only expressions of the modelled grammar: "tomorrow" and
"next/this <weekday>". -/
def dayOnlyRel : List String :=
  ["tomorrow",
   "next monday", "next tuesday", "next wednesday", "next thursday",
   "next friday", "next saturday", "next sunday",
   "this monday", "this tuesday", "this wednesday", "this thursday",
   "this friday", "this saturday", "this sunday"]

/-- Checker: at reference clock 2010-01-01 the expression parses to a 9:00 AM
timestamp whose rendering is the date followed by the " 9am" suffix. -/
def dayOnly9am (e : String) : Bool :=
  match RecurringEvent.parse ⟨2010, 1, 1⟩ e with
  | .timestamp x =>
    x.hh == 9 && x.mi == 0 && x.ss == 0 &&
      (RecurringEvent.format (.timestamp x) == some (renderDateStr x.date ++ " 9am"))
  | _ => false

/-- Outcome on which the formatter's rendering succeeds: absent and timestamps
always render; serialized rule text renders exactly when the tolerant scan does
not fail closed. -/
def renderableB : ParseOutcome → Bool
  | .rrule s => (formatRRuleChars s.data).isSome
  | _ => true

/-- C1: `parse` is a total function into the tagged union {serialized rule,
timestamp, absent} — it never throws — and on the three contract inputs it
returns, for every reference clock, a serialized rule string for "every day",
the timestamp 2001-03-01 00:00 for "march 3rd, 2001", and absent for
"remember to call mitchell". -/
theorem c1_parse_total_tagged_union :
    (∀ (refd : Date) (s : String),
        (∃ r, RecurringEvent.parse refd s = .rrule r) ∨
        (∃ x, RecurringEvent.parse refd s = .timestamp x) ∨
        RecurringEvent.parse refd s = .noMatch) ∧
    (∀ refd : Date,
        RecurringEvent.parse refd "every day" = .rrule "RRULE:FREQ=DAILY;INTERVAL=1") ∧
    (∀ refd : Date,
        RecurringEvent.parse refd "march 3rd, 2001" =
          .timestamp ⟨⟨2001, 3, 3⟩, 0, 0, 0⟩) ∧
    (∀ refd : Date, RecurringEvent.parse refd "remember to call mitchell" = .noMatch) := by
  refine ⟨?_, fun _ => rfl, fun _ => rfl, fun _ => rfl⟩
  intro refd s
  cases h : RecurringEvent.parse refd s with
  | rrule r => exact Or.inl ⟨r, rfl⟩
  | timestamp x => exact Or.inr (Or.inl ⟨x, rfl⟩)
  | noMatch => exact Or.inr (Or.inr rfl)

/-- C2: `format` is identity-preserving on each of the eight malformed inputs
(missing RRULE:, missing FREQ, FREQ=WEEKLY without BYDAY, unrecognized BYDAY,
FREQ=MONTHLY without BYMONTHDAY/BYDAY, FREQ=YEARLY without
BYMONTHDAY/BYDAY/BYMONTH, unrecognized FREQ), and absent maps to absent. -/
theorem c2_format_identity_on_malformed :
    RecurringEvent.format .noMatch = none ∧
    RecurringEvent.format (.rrule "") = some "" ∧
    RecurringEvent.format (.rrule "abc") = some "abc" ∧
    RecurringEvent.format (.rrule "RRULE:INTERVAL=1") = some "RRULE:INTERVAL=1" ∧
    RecurringEvent.format (.rrule "RRULE:FREQ=WEEKLY") = some "RRULE:FREQ=WEEKLY" ∧
    RecurringEvent.format (.rrule "RRULE:FREQ=WEEKLY;BYDAY=XX") =
      some "RRULE:FREQ=WEEKLY;BYDAY=XX" ∧
    RecurringEvent.format (.rrule "RRULE:FREQ=MONTHLY") = some "RRULE:FREQ=MONTHLY" ∧
    RecurringEvent.format (.rrule "RRULE:FREQ=YEARLY") = some "RRULE:FREQ=YEARLY" ∧
    RecurringEvent.format (.rrule "RRULE:FREQ=BADLY") = some "RRULE:FREQ=BADLY" := by
  refine ⟨rfl, ?_, ?_, ?_, ?_, ?_, ?_, ?_, ?_⟩ <;> decide

/-- C3: with reference clock 2012-02-29, "daily for the next year" and "daily
for the next 12 months" both serialize with UNTIL=20130301 (clamped forward to
2013-03-01, never backward to 2013-02-28); in general, adding N calendar
months to a valid date either keeps the day-of-month in the target month, or
— when that day does not exist there — yields the 1st of the month after the
target month, and the result is always a valid date. -/
theorem c3_duration_overflow_clamps_forward :
    RecurringEvent.parse ⟨2012, 2, 29⟩ "daily for the next year" =
      .rrule "RRULE:FREQ=DAILY;INTERVAL=1;UNTIL=20130301" ∧
    RecurringEvent.parse ⟨2012, 2, 29⟩ "daily for the next 12 months" =
      .rrule "RRULE:FREQ=DAILY;INTERVAL=1;UNTIL=20130301" ∧
    (∀ (x : Date) (n : Nat), ValidDate x →
      ValidDate (addMonths n x) ∧
        (((addMonths n x).d = x.d ∧ monthIdx (addMonths n x) = monthIdx x + n ∧
            x.d ≤ dim (monthShift x n).1 (monthShift x n).2) ∨
          ((addMonths n x).d = 1 ∧ monthIdx (addMonths n x) = monthIdx x + n + 1 ∧
            dim (monthShift x n).1 (monthShift x n).2 < x.d))) := by
  refine ⟨by decide, by decide, ?_⟩
  intro x n hx
  obtain ⟨hm1, hm2, hd1, hd2⟩ := hx
  have hdimpos : ∀ (y m : Nat), 1 ≤ dim y m := by
    intro y m
    unfold dim
    split
    · split <;> omega
    · split <;> omega
  have htm : (12 * x.y + (x.m - 1) + n) % 12 < 12 := Nat.mod_lt _ (by omega)
  have htd := Nat.div_add_mod (12 * x.y + (x.m - 1) + n) 12
  simp only [addMonths, monthShift, ValidDate, monthIdx]
  split_ifs with hc h12
  · exact ⟨⟨by (try dsimp only); omega, by (try dsimp only); omega, hd1, hc⟩,
      Or.inl ⟨rfl, by (try dsimp only); omega, hc⟩⟩
  · exact ⟨⟨by (try dsimp only); omega, by (try dsimp only); omega,
      by (try dsimp only); omega, hdimpos _ _⟩,
      Or.inr ⟨rfl, by (try dsimp only); omega, by (try dsimp only); omega⟩⟩
  · exact ⟨⟨by (try dsimp only); omega, by (try dsimp only); omega,
      by (try dsimp only); omega, hdimpos _ _⟩,
      Or.inr ⟨rfl, by (try dsimp only); omega, by (try dsimp only); omega⟩⟩

/-- Witness for C3: instantiating the general clamp law at 2012-02-29 plus
12 months. -/
theorem c3_duration_overflow_clamps_forward_witness :
    ValidDate (addMonths 12 ⟨2012, 2, 29⟩) ∧ (addMonths 12 ⟨2012, 2, 29⟩).d = 1 :=
  ⟨(c3_duration_overflow_clamps_forward.2.2 ⟨2012, 2, 29⟩ 12 (by decide)).1, by decide⟩

/-- C6: bare frequency words parse to exactly {freq, interval = 1} with
nothing else set, for every reference clock, while the quantified
bare-frequency phrase "twice weekly" is absent by contract. -/
theorem c6_bare_frequency_ambiguity_boundary :
    ∀ refd : Date,
      RecurringEvent.parse refd "weekly" = .rrule "RRULE:FREQ=WEEKLY;INTERVAL=1" ∧
      RecurringEvent.parse refd "monthly" = .rrule "RRULE:FREQ=MONTHLY;INTERVAL=1" ∧
      RecurringEvent.parse refd "yearly" = .rrule "RRULE:FREQ=YEARLY;INTERVAL=1" ∧
      RecurringEvent.parse refd "twice weekly" = .noMatch :=
  fun _ => ⟨rfl, rfl, rfl, rfl⟩

/-- C7: "saturdays through tuesdays" expands inclusively with wraparound to
byday = {MO, TU, SA, SU} in a weekly rule, and formats as
"every Mon and Tue and weekend", for every reference clock. -/
theorem c7_weekday_range_wraparound :
    ∀ refd : Date,
      RecurringEvent.parse refd "saturdays through tuesdays" =
        .rrule "RRULE:FREQ=WEEKLY;INTERVAL=1;BYDAY=MO,TU,SA,SU" ∧
      RecurringEvent.format (RecurringEvent.parse refd "saturdays through tuesdays") =
        some "every Mon and Tue and weekend" :=
  fun _ => ⟨rfl, rfl⟩

/-- C8 counterexample: "march 3rd" is a day-only expression with no explicit
clock time, yet at reference clock 2010-01-01 it parses to midnight and
formats as "Wed Mar 3, 2010" with no implicit 9am suffix. -/
theorem c8_counterexample_literal_date_no_9am :
    RecurringEvent.parse ⟨2010, 1, 1⟩ "march 3rd" = .timestamp ⟨⟨2010, 3, 3⟩, 0, 0, 0⟩ ∧
    RecurringEvent.format (RecurringEvent.parse ⟨2010, 1, 1⟩ "march 3rd") =
      some "Wed Mar 3, 2010" ∧
    ∀ p : String, ("Wed Mar 3, 2010" : String) ≠ p ++ " 9am" := by
  refine ⟨by decide, by decide, ?_⟩
  intro p h
  have hd : ("Wed Mar 3, 2010" : String).data = p.data ++ (" 9am" : String).data := by
    rw [h, String.data_append]
  have hl : p.data.length = 11 := by
    have h2 := congrArg List.length hd
    rw [List.length_append] at h2
    have h3 : (" 9am" : String).data.length = 4 := by decide
    have h4 : ("Wed Mar 3, 2010" : String).data.length = 15 := by decide
    omega
  have h11 := congrArg (List.drop 11) hd
  rw [List.drop_left' hl] at h11
  exact absurd h11 (by decide)

/-- C8 amended: every relative day-only expression with no explicit clock time
("tomorrow", "next <weekday>", "this <weekday>") parses, at reference clock
2010-01-01, to a 9:00 AM timestamp and formats as the date followed by the
implicit " 9am" suffix; in particular "next tuesday" formats as
"Tue Jan 5, 2010 9am". -/
theorem c8_relative_day_only_9am :
    (∀ e ∈ dayOnlyRel, dayOnly9am e = true) ∧
    RecurringEvent.format (RecurringEvent.parse ⟨2010, 1, 1⟩ "next tuesday") =
      some "Tue Jan 5, 2010 9am" := by
  exact ⟨by decide, by decide⟩

/-- Witness for C8: the amended statement applied at "next tuesday". -/
theorem c8_relative_day_only_9am_witness : dayOnly9am "next tuesday" = true :=
  c8_relative_day_only_9am.1 "next tuesday" (by decide)

/-- C9: the adapter translates exactly when the input has a character in the
Cyrillic ranges а-я (U+0430..U+044F) or А-Я (U+0410..U+042F) — and otherwise
passes the input unchanged to the base parser; ё/Ё (U+0451/U+0401) are outside
both ranges, so a string whose only Cyrillic letters are ё or Ё is parsed
untranslated. -/
theorem c9_adapter_translates_iff_cyrillic :
    (∀ s : String,
        is_ru s = true ↔
          ∃ c ∈ s.data,
            (0x430 ≤ c.toNat ∧ c.toNat ≤ 0x44F) ∨ (0x410 ≤ c.toNat ∧ c.toNat ≤ 0x42F)) ∧
    (∀ (tr : String → String) (refd : Date) (s : String), is_ru s = true →
        RecurringEventAuto.parse tr refd s = RecurringEvent.parse refd (tr s)) ∧
    (∀ (tr : String → String) (refd : Date) (s : String), is_ru s = false →
        RecurringEventAuto.parse tr refd s = RecurringEvent.parse refd s) ∧
    is_ru "ёЁ every day" = false ∧
    (∀ (tr : String → String) (refd : Date),
        RecurringEventAuto.parse tr refd "ёЁ every day" =
          RecurringEvent.parse refd "ёЁ every day") := by
  refine ⟨?_, ?_, ?_, by decide, ?_⟩
  · intro s
    simp [is_ru, List.any_eq_true]
  · intro tr refd s h
    simp [RecurringEventAuto.parse, h]
  · intro tr refd s h
    simp [RecurringEventAuto.parse, h]
  · intro tr refd
    simp [RecurringEventAuto.parse, show is_ru "ёЁ every day" = false by decide]

/-- Witness for C9: a Cyrillic input is parsed through the translator, a ё-only
input is parsed untranslated. -/
theorem c9_adapter_translates_iff_cyrillic_witness :
    RecurringEventAuto.parse (fun _ => "daily") ⟨2010, 1, 1⟩ "каждый день" =
      RecurringEvent.parse ⟨2010, 1, 1⟩ "daily" :=
  c9_adapter_translates_iff_cyrillic.2.1 (fun _ => "daily") ⟨2010, 1, 1⟩ "каждый день"
    (by decide)

/-- C10: when the lazily initialized translator state is empty and
initialization yields no translator, `translate_ru_en` returns its input text
unchanged, and the adapter's parse degrades to parsing the untranslated text
(no error path exists). -/
theorem c10_missing_translator_degrades_gracefully :
    ∀ (refd : Date) (s : String),
      translate_ru_en none none s = (s, none) ∧
      (RecurringEventAuto.parseSt none none refd s).1 = RecurringEvent.parse refd s := by
  intro refd s
  refine ⟨rfl, ?_⟩
  by_cases h : is_ru s = true
  · simp [RecurringEventAuto.parseSt, translate_ru_en, h]
  · simp at h
    simp [RecurringEventAuto.parseSt, translate_ru_en, h]

/- Normalization lemmas: carrier-phrase stripping commutes with embedding
a phrase in the recognized carriers. -/

theorem clean_append (a b : List Char) : clean (a ++ b) = clean a ++ clean b := by
  simp [clean, List.filter_append]

theorem wordsAcc_append (sep : Char) (r : List Char) :
    ∀ (l cur : List Char),
      wordsAcc sep cur (l ++ sep :: r) = wordsAcc sep cur l ++ wordsAcc sep [] r := by
  intro l
  induction l with
  | nil =>
    intro cur
    cases h : cur.isEmpty <;> simp [wordsAcc, h]
  | cons c cs ih =>
    intro cur
    by_cases h : c = sep
    · cases hc : cur.isEmpty <;> simp [wordsAcc, h, hc, ih]
    · simp [wordsAcc, h, ih]

theorem wordsBy_append_sep (sep : Char) (l r : List Char) :
    wordsBy sep (l ++ sep :: r) = wordsBy sep l ++ wordsBy sep r :=
  wordsAcc_append sep r l []

theorem stripAux_nil (f : Nat) : stripAux f [] = [] := by
  cases f with
  | zero => rfl
  | succ g => simp [stripAux, carrierHead]

theorem take2_eq_head_len {ts : List (List Char)} (h : ts.take 2 = carrierHead) :
    2 ≤ ts.length := by
  have := congrArg List.length h
  simp [List.length_take, carrierHead] at this
  omega

theorem stripAux_congr :
    ∀ (f g : Nat) (ts : List (List Char)), ts.length ≤ f → ts.length ≤ g →
      stripAux f ts = stripAux g ts := by
  intro f
  induction f with
  | zero =>
    intro g ts h1 _
    have : ts = [] := List.length_eq_zero.mp (by omega)
    subst this
    rw [stripAux_nil, stripAux_nil]
  | succ f ih =>
    intro g ts h1 h2
    cases g with
    | zero =>
      have : ts = [] := List.length_eq_zero.mp (by omega)
      subst this
      rw [stripAux_nil, stripAux_nil]
    | succ g =>
      simp only [stripAux]
      by_cases hc1 : ts.take 2 = carrierHead
      · have hlen := take2_eq_head_len hc1
        simp only [hc1, if_pos]
        exact ih g (ts.drop 2) (by simp [List.length_drop]; omega)
          (by simp [List.length_drop]; omega)
      · simp only [hc1, if_false]
        by_cases hc2 : 5 ≤ ts.length ∧ ts.drop (ts.length - 5) = carrierTail
        · simp only [hc2, if_pos]
          exact ih g (ts.take (ts.length - 5)) (by simp [List.length_take]; omega)
            (by simp [List.length_take]; omega)
        · simp only [hc2, if_false]

theorem stripCT_head (ts : List (List Char)) :
    stripCT (carrierHead ++ ts) = stripCT ts := by
  show stripAux (carrierHead ++ ts).length (carrierHead ++ ts) = stripCT ts
  have hl : (carrierHead ++ ts).length = ts.length + 2 := by simp [carrierHead]
  rw [hl]
  simp only [stripAux, List.take_left' (by rfl : (carrierHead).length = 2),
    List.drop_left' (by rfl : (carrierHead).length = 2), if_pos]
  exact stripAux_congr (ts.length + 1) ts.length ts (by omega) (by omega)

theorem stripCT_tail :
    ∀ ts : List (List Char), stripCT (ts ++ carrierTail) = stripCT ts := by
  intro ts
  generalize hn : ts.length = n
  induction n using Nat.strong_induction_on generalizing ts with
  | _ n ihn =>
  subst hn
  by_cases hpre : (ts ++ carrierTail).take 2 = carrierHead
  · -- the head carrier can only match inside ts, so ts = im :: available :: rest
    match ts with
    | [] => exact absurd hpre (by decide)
    | [a] =>
      exfalso
      simp [carrierTail, carrierHead, tok, List.take] at hpre
    | a :: b :: rest =>
      have ha : a = tok "im" := by
        have := congrArg (fun l => l.take 1) hpre
        simpa [carrierHead] using this
      have hb : b = tok "available" := by
        have := congrArg (fun l => l.drop 1) hpre
        simpa [carrierHead] using this
      subst ha
      subst hb
      have h1 : stripCT ((tok "im" :: tok "available" :: rest) ++ carrierTail) =
          stripCT (rest ++ carrierTail) := by
        unfold stripCT
        have hlen : ((tok "im" :: tok "available" :: rest) ++ carrierTail).length =
            ((rest ++ carrierTail).length + 1) + 1 := by simp
        rw [hlen]
        simp only [stripAux, List.cons_append]
        rw [if_pos (by simp [List.take, carrierHead])]
        exact stripAux_congr ((rest ++ carrierTail).length + 1) (rest ++ carrierTail).length
          (rest ++ carrierTail) (by omega) (by omega)
      have h2 : stripCT (tok "im" :: tok "available" :: rest) = stripCT rest := by
        unfold stripCT
        have hlen : (tok "im" :: tok "available" :: rest).length = (rest.length + 1) + 1 := by
          simp
        rw [hlen]
        simp only [stripAux]
        rw [if_pos (by simp [List.take, carrierHead])]
        exact stripAux_congr (rest.length + 1) rest.length rest (by omega) (by omega)
      rw [h1, h2]
      exact ihn rest.length (by simp; omega) rest rfl
  · -- the tail carrier is stripped from ts ++ carrierTail in one step
    show stripAux (ts ++ carrierTail).length (ts ++ carrierTail) = stripCT ts
    have hl : (ts ++ carrierTail).length = (ts.length + 4) + 1 := by simp [carrierTail]
    rw [hl]
    simp only [stripAux]
    rw [if_neg hpre, if_pos ?hcond]
    case hcond =>
      refine ⟨by rw [hl]; omega, ?_⟩
      rw [hl]
      have h5 : ts.length + 4 + 1 - 5 = ts.length := by omega
      rw [h5, List.drop_left]
    rw [hl]
    have h5 : ts.length + 4 + 1 - 5 = ts.length := by omega
    rw [h5, List.take_left]
    exact stripAux_congr (ts.length + 4) ts.length ts (by omega) (by omega)


theorem normalize_head (e : String) : normalize ("I'm available " ++ e) = normalize e := by
  unfold normalize
  rw [String.data_append, clean_append]
  have h2 : clean ("I'm available ".data) = "im available".data ++ [' '] := by decide
  rw [h2, List.append_assoc, List.singleton_append, wordsBy_append_sep]
  have h3 : wordsBy ' ' ("im available".data) = carrierHead := by decide
  rw [h3, stripCT_head]

theorem normalize_tail (e : String) :
    normalize (e ++ " would work best for me") = normalize e := by
  unfold normalize
  rw [String.data_append, clean_append]
  have h2 : clean (" would work best for me".data) = ' ' :: "would work best for me".data := by
    decide
  rw [h2, wordsBy_append_sep]
  have h3 : wordsBy ' ' ("would work best for me".data) = carrierTail := by decide
  rw [h3, stripCT_tail]

theorem c5_carrier_phrase_invariance :
    ∀ (refd : Date) (e : String),
      RecurringEvent.parse refd ("I'm available " ++ e) = RecurringEvent.parse refd e ∧
      RecurringEvent.parse refd (e ++ " would work best for me") =
        RecurringEvent.parse refd e ∧
      RecurringEvent.parse refd ("I'm available " ++ (e ++ " would work best for me")) =
        RecurringEvent.parse refd e := by
  intro refd e
  refine ⟨?_, ?_, ?_⟩ <;>
    simp only [RecurringEvent.parse, normalize_head, normalize_tail]

/- Decimal numeral lemmas: rendering and parsing are mutually inverse,
including zero padding. -/

theorem decAux_eq_digits : ∀ (f n : Nat), n ≤ f → decAux f n = Nat.digits 10 n := by
  intro f
  induction f with
  | zero =>
    intro n h
    have : n = 0 := by omega
    subst this
    simp [decAux]
  | succ f ih =>
    intro n h
    by_cases h0 : n = 0
    · subst h0
      simp [decAux]
    · rw [decAux, if_neg h0]
      rw [Nat.digits_def' (by norm_num : (1:Nat) < 10) (by omega)]
      have hdiv : n / 10 ≤ f := by
        have := Nat.div_lt_self (by omega : 0 < n) (by norm_num : 1 < 10)
        omega
      rw [ih (n / 10) hdiv]

theorem charVal_digitChar {d : Nat} (h : d < 10) : charVal (digitChar d) = some d := by
  interval_cases d <;> decide

theorem digitsOf_map_digitChar :
    ∀ l : List Nat, (∀ d ∈ l, d < 10) → digitsOf (l.map digitChar) = some l := by
  intro l
  induction l with
  | nil => intro _; rfl
  | cons d ds ih =>
    intro h
    have hd : d < 10 := h d (by simp)
    simp only [List.map_cons, digitsOf, charVal_digitChar hd, ih (fun x hx => h x (by simp [hx]))]

theorem parseNat_dec (n : Nat) : parseNat (dec n) = some n := by
  by_cases h0 : n = 0
  · subst h0
    decide
  · unfold dec parseNat
    rw [if_neg h0]
    have hdg : decAux n n = Nat.digits 10 n := decAux_eq_digits n n (le_refl n)
    rw [hdg]
    have hlt : ∀ d ∈ (Nat.digits 10 n).reverse, d < 10 := by
      intro d hd
      exact Nat.digits_lt_base (by norm_num) (List.mem_reverse.mp hd)
    rw [digitsOf_map_digitChar _ hlt]
    have hne : (Nat.digits 10 n).reverse ≠ [] := by
      simp [Nat.digits_ne_nil_iff_ne_zero.mpr h0]
    simp [List.isEmpty_iff, hne, Nat.ofDigits_digits]

theorem digitsOf_replicate_zero (k : Nat) :
    digitsOf (List.replicate k '0') = some (List.replicate k 0) := by
  induction k with
  | zero => rfl
  | succ k ih => simp [List.replicate_succ, digitsOf, ih, charVal]

theorem digitsOf_append (a b : List Char) :
    digitsOf (a ++ b) = (digitsOf a).bind (fun x => (digitsOf b).map (fun y => x ++ y)) := by
  induction a with
  | nil =>
    cases hb : digitsOf b <;> simp [digitsOf, hb]
  | cons c cs ih =>
    simp only [List.cons_append, digitsOf, ih]
    cases hc : charVal c <;> cases hcs : digitsOf cs <;> cases hb : digitsOf b <;>
      simp [hc, hcs, hb, ih]

theorem ofDigits_append_replicate_zero (l : List Nat) (k : Nat) :
    Nat.ofDigits 10 (l ++ List.replicate k 0) = Nat.ofDigits 10 l := by
  rw [Nat.ofDigits_append]
  have : Nat.ofDigits 10 (List.replicate k 0) = 0 := by
    induction k with
    | zero => rfl
    | succ k ih => simp [List.replicate_succ, Nat.ofDigits_cons, ih]
  simp [this]

theorem parseNat_padTo (k n : Nat) : parseNat (padTo k (dec n)) = some n := by
  have hp := parseNat_dec n
  unfold parseNat at hp ⊢
  unfold padTo
  rw [digitsOf_append, digitsOf_replicate_zero]
  cases hd : digitsOf (dec n) with
  | none => rw [hd] at hp; exact absurd hp (by simp)
  | some ds =>
    rw [hd] at hp
    simp only [Option.some_bind, Option.map_some'] at hp ⊢
    by_cases he : ds.isEmpty = true
    · rw [if_pos he] at hp; exact absurd hp (by simp)
    · rw [if_neg he] at hp
      have hne : ¬ (List.replicate (k - (dec n).length) 0 ++ ds).isEmpty = true := by
        simp only [List.isEmpty_iff] at he ⊢
        simp [he]
      rw [if_neg hne, List.reverse_append, List.reverse_replicate,
        ofDigits_append_replicate_zero]
      exact hp

theorem dec_length_le {n k : Nat} (hk : 1 ≤ k) (hn : n < 10 ^ k) :
    (dec n).length ≤ k ∧ 1 ≤ (dec n).length := by
  by_cases h0 : n = 0
  · subst h0
    refine ⟨?_, by simp [dec]⟩
    simp [dec]
    omega
  · unfold dec
    rw [if_neg h0]
    simp only [List.length_map, List.length_reverse, decAux_eq_digits n n (le_refl n)]
    constructor
    · by_contra hgt
      push_neg at hgt
      have := Nat.base_pow_length_digits_le 10 n (by norm_num) h0
      have h1 : 10 ^ (k + 1) ≤ 10 ^ (Nat.digits 10 n).length := Nat.pow_le_pow_right (by norm_num) hgt
      have h2 : 10 ^ (Nat.digits 10 n).length ≤ 10 * n := this
      have h3 : 10 * n < 10 * 10 ^ k := by omega
      have : (10:Nat) * 10 ^ k = 10 ^ (k+1) := by ring
      omega
    · have hne : Nat.digits 10 n ≠ [] := Nat.digits_ne_nil_iff_ne_zero.mpr h0
      cases hdg : Nat.digits 10 n with
      | nil => exact absurd hdg hne
      | cons a l => simp

theorem padTo_length {k : Nat} {l : List Char} (h : l.length ≤ k) :
    (padTo k l).length = k := by
  simp [padTo]
  omega

/- Tokenization lemmas: joining space-free nonempty tokens and re-splitting
is the identity, and cleaning distributes over joins. -/

theorem wordsAcc_no_sep (sep : Char) :
    ∀ (t cur : List Char), (∀ c ∈ t, ¬ c = sep) →
      wordsAcc sep cur t = if (cur.reverse ++ t).isEmpty then [] else [cur.reverse ++ t] := by
  intro t
  induction t with
  | nil =>
    intro cur _
    by_cases hcur : cur = []
    · subst hcur
      simp [wordsAcc]
    · simp [wordsAcc, List.isEmpty_iff, hcur, List.reverse_eq_nil_iff]
  | cons c cs ih =>
    intro cur h
    have hc : ¬ c = sep := h c (by simp)
    rw [wordsAcc, if_neg hc, ih (c :: cur) (fun x hx => h x (by simp [hx]))]
    have : (c :: cur).reverse ++ cs = cur.reverse ++ c :: cs := by simp
    rw [this]

theorem wordsBy_single (sep : Char) (t : List Char) (hne : t ≠ [])
    (h : ∀ c ∈ t, ¬ c = sep) : wordsBy sep t = [t] := by
  unfold wordsBy
  rw [wordsAcc_no_sep sep t [] h]
  simp [List.isEmpty_iff, hne]

theorem wordsBy_joinBy (sep : Char) :
    ∀ ts : List (List Char), (∀ t ∈ ts, t ≠ [] ∧ ∀ c ∈ t, ¬ c = sep) →
      wordsBy sep (joinBy sep ts) = ts := by
  intro ts
  induction ts with
  | nil => intro _; rfl
  | cons t rest ih =>
    intro h
    obtain ⟨hne, hsep⟩ := h t (by simp)
    cases rest with
    | nil =>
      show wordsBy sep t = [t]
      exact wordsBy_single sep t hne hsep
    | cons u us =>
      show wordsBy sep (t ++ sep :: joinBy sep (u :: us)) = t :: u :: us
      rw [wordsBy_append_sep, wordsBy_single sep t hne hsep,
        ih (fun x hx => h x (by simp at hx ⊢; tauto))]
      rfl

theorem clean_space_cons (r : List Char) : clean (' ' :: r) = ' ' :: clean r := rfl

theorem clean_joinBy (sep : Char) (hsep : sep = ' ') :
    ∀ ts : List (List Char), clean (joinBy sep ts) = joinBy sep (ts.map clean) := by
  subst hsep
  intro ts
  induction ts with
  | nil => rfl
  | cons t rest ih =>
    cases rest with
    | nil => rfl
    | cons u us =>
      show clean (t ++ ' ' :: joinBy ' ' (u :: us)) =
        clean t ++ ' ' :: joinBy ' ' ((u :: us).map clean)
      rw [clean_append, clean_space_cons, ih]

/- Scanning lemmas: carrier transparency, token splitting, key=value
splitting, and digit tokens passing the normalizer unchanged. -/

theorem stripCT_eq_self {ts : List (List Char)}
    (h1 : ∀ u, ts.head? = some u → u ≠ tok "im")
    (h2 : ∀ u, ts.getLast? = some u → u ≠ tok "me") : stripCT ts = ts := by
  unfold stripCT
  cases hl : ts.length with
  | zero => rfl
  | succ f =>
    simp only [stripAux]
    rw [if_neg ?hc1, if_neg ?hc2]
    case hc1 =>
      intro hc
      cases ts with
      | nil => exact absurd hc (by decide)
      | cons a l =>
        have ha : a = tok "im" := by
          have := congrArg List.head? hc
          simpa [carrierHead] using this
        exact absurd ha (h1 a rfl)
    case hc2 =>
      rintro ⟨hlen, hdrop⟩
      have hsplit := List.take_append_drop (ts.length - 5) ts
      rw [hdrop] at hsplit
      have hlast : ts.getLast? = some (tok "me") := by
        conv_lhs => rw [← hsplit]
        rw [List.getLast?_append]
        rfl
      exact absurd rfl (h2 _ hlast)

theorem splitAtTok_none {u : List Char} :
    ∀ ts : List (List Char), (∀ t ∈ ts, t ≠ u) → splitAtTok u ts = none := by
  intro ts
  induction ts with
  | nil => intro _; rfl
  | cons t rest ih =>
    intro h
    have ht : t ≠ u := h t (by simp)
    rw [splitAtTok, if_neg ht, ih (fun x hx => h x (by simp [hx]))]

theorem splitAtTok_append {u : List Char} :
    ∀ (b r : List (List Char)), (∀ t ∈ b, t ≠ u) →
      splitAtTok u (b ++ u :: r) = some (b, r) := by
  intro b
  induction b with
  | nil => intro r _; simp [splitAtTok]
  | cons t rest ih =>
    intro r h
    have ht : t ≠ u := h t (by simp)
    rw [List.cons_append, splitAtTok, if_neg ht, ih r (fun x hx => h x (by simp [hx]))]

theorem takeWhile_all {p : Char → Bool} :
    ∀ l : List Char, (∀ c ∈ l, p c = true) → l.takeWhile p = l ∧ l.dropWhile p = [] := by
  intro l
  induction l with
  | nil => intro _; exact ⟨rfl, rfl⟩
  | cons c cs ih =>
    intro h
    have hc : p c = true := h c (by simp)
    obtain ⟨h1, h2⟩ := ih (fun x hx => h x (by simp [hx]))
    constructor
    · simp [List.takeWhile, hc, h1]
    · simp [List.dropWhile, hc, h2]

theorem takeWhile_key {p : Char → Bool} {x : Char} (hx : p x = false) :
    ∀ (k v : List Char), (∀ c ∈ k, p c = true) →
      (k ++ x :: v).takeWhile p = k ∧ (k ++ x :: v).dropWhile p = x :: v := by
  intro k
  induction k with
  | nil =>
    intro v _
    constructor
    · simp [List.takeWhile, hx]
    · simp [List.dropWhile, hx]
  | cons c cs ih =>
    intro v h
    have hc : p c = true := h c (by simp)
    obtain ⟨h1, h2⟩ := ih v (fun y hy => h y (by simp [hy]))
    constructor
    · simp [List.takeWhile, hc, h1]
    · simp [List.dropWhile, hc, h2]

theorem starts_same : ∀ p l : List Char, starts p (p ++ l) = true := by
  intro p
  induction p with
  | nil => intro l; rfl
  | cons c cs ih => intro l; simp [starts, ih]

theorem findAfter_same (c : Char) (ps l : List Char) :
    findAfter (c :: ps) ((c :: ps) ++ l) = some l := by
  show findAfter (c :: ps) (c :: (ps ++ l)) = some l
  rw [findAfter]
  rw [if_pos (show starts (c :: ps) (c :: (ps ++ l)) = true from starts_same (c :: ps) l)]
  simp [List.length_cons, List.drop_succ_cons, List.drop_left]

theorem dec_all_digits (n : Nat) : ∀ c ∈ dec n, (charVal c).isSome = true := by
  intro c hc
  unfold dec at hc
  by_cases h0 : n = 0
  · rw [if_pos h0] at hc
    simp at hc
    subst hc
    decide
  · rw [if_neg h0, decAux_eq_digits n n (le_refl n)] at hc
    simp only [List.mem_map, List.mem_reverse] at hc
    obtain ⟨d, hd, hcd⟩ := hc
    have : d < 10 := Nat.digits_lt_base (by norm_num) hd
    rw [← hcd, charVal_digitChar this]
    rfl

theorem ne_of_digit_free {l t : List Char} {a : Char}
    (hall : ∀ c ∈ l, (charVal c).isSome = true) (ha : charVal a = none) (hm : a ∈ t) :
    l ≠ t := by
  intro he
  subst he
  have := hall a hm
  rw [ha] at this
  exact absurd this (by decide)

theorem digit_keep {c : Char} (h : (charVal c).isSome = true) :
    Char.toLower c = c ∧ (!(c == ',' || c.toNat == 39)) = true := by
  unfold charVal at h
  split_ifs at h with h0 h1 h2 h3 h4 h5 h6 h7 h8 h9
  · subst h0; decide
  · subst h1; decide
  · subst h2; decide
  · subst h3; decide
  · subst h4; decide
  · subst h5; decide
  · subst h6; decide
  · subst h7; decide
  · subst h8; decide
  · subst h9; decide
  · exact absurd h (by decide)

theorem clean_of_digits : ∀ l : List Char, (∀ c ∈ l, (charVal c).isSome = true) →
    clean l = l := by
  intro l
  induction l with
  | nil => intro _; rfl
  | cons c cs ih =>
    intro h
    obtain ⟨ht, hk⟩ := digit_keep (h c (by simp))
    have hcs := ih (fun x hx => h x (by simp [hx]))
    simp only [clean, List.map_cons, ht, List.filter_cons, hk, if_true]
    simp only [clean] at hcs
    rw [hcs]

theorem clean_dec (n : Nat) : clean (dec n) = dec n :=
  clean_of_digits (dec n) (dec_all_digits n)

/- Vocabulary bounds and calendar validity lemmas. -/

theorem lookupTok_mem : ∀ (tbl : List (List Char × Nat)) (t : List Char) (v : Nat),
    lookupTok tbl t = some v → v ∈ tbl.map Prod.snd := by
  intro tbl
  induction tbl with
  | nil => intro t v h; exact absurd h (by simp [lookupTok])
  | cons kv rest ih =>
    intro t v h
    rw [lookupTok] at h
    by_cases he : t = kv.1
    · rw [if_pos he] at h
      simp at h
      simp [← h]
    · rw [if_neg he] at h
      simp [ih t v h]

theorem wdSingle_lt {t : List Char} {i : Nat} (h : wdSingle t = some i) : i < 7 := by
  have hall : ∀ v ∈ wdTbl.map Prod.snd, v < 7 := by decide
  exact hall i (lookupTok_mem wdTbl t i h)

theorem monthTok_bounds {t : List Char} {m : Nat} (h : monthTok t = some m) :
    1 ≤ m ∧ m ≤ 12 := by
  have hall : ∀ v ∈ monthTbl.map Prod.snd, 1 ≤ v ∧ v ≤ 12 := by decide
  exact hall m (lookupTok_mem monthTbl t m h)

theorem bydayCode_lt {t : List Char} {i : Nat} (h : bydayCode t = some i) : i < 7 := by
  have hall : ∀ v ∈ codeTbl.map Prod.snd, v < 7 := by decide
  exact hall i (lookupTok_mem codeTbl _ i h)

theorem weekday_lt (x : Date) : weekday x < 7 := by
  unfold weekday
  omega

theorem dim_pos (y m : Nat) : 1 ≤ dim y m := by
  unfold dim
  split
  · split <;> omega
  · split <;> omega

theorem nextDay_valid {x : Date} (h : ValidDate x) : ValidDate (nextDay x) := by
  obtain ⟨h1, h2, h3, h4⟩ := h
  have hp1 := dim_pos x.y (x.m + 1)
  have hp2 := dim_pos (x.y + 1) 1
  simp only [nextDay, ValidDate]
  split_ifs with hd hm <;>
    refine ⟨by (try dsimp only); omega, by (try dsimp only); omega,
      by (try dsimp only); omega, by (try dsimp only); omega⟩

theorem addDays_valid (n : Nat) {x : Date} (h : ValidDate x) : ValidDate (addDays n x) := by
  unfold addDays
  induction n with
  | zero => exact h
  | succ n ih =>
    rw [Function.iterate_succ_apply']
    exact nextDay_valid ih

theorem addMonths_valid (n : Nat) {x : Date} (h : ValidDate x) :
    ValidDate (addMonths n x) := by
  obtain ⟨h1, h2, h3, h4⟩ := h
  have htm : (12 * x.y + (x.m - 1) + n) % 12 < 12 := Nat.mod_lt _ (by omega)
  simp only [addMonths, monthShift, ValidDate]
  split_ifs with hc h12
  · exact ⟨by (try dsimp only); omega, by (try dsimp only); omega, h3, hc⟩
  · exact ⟨by (try dsimp only); omega, by (try dsimp only); omega,
      by (try dsimp only); omega, dim_pos _ _⟩
  · exact ⟨by (try dsimp only); omega, by (try dsimp only); omega,
      by (try dsimp only); omega, dim_pos _ _⟩

theorem parseTimeTok_lt {t : List Char} {h : Nat} (hp : parseTimeTok t = some h) : h < 24 := by
  unfold parseTimeTok at hp
  dsimp only at hp
  split_ifs at hp
  all_goals
    first
    | exact absurd hp (by simp)
    | (revert hp
       cases hn : parseNat (t.take (t.length - 2)) with
       | none => intro hp; exact absurd hp (by simp)
       | some k =>
         intro hp
         dsimp only at hp
         split_ifs at hp <;>
           first
           | (simp only [Option.some.injEq] at hp; omega)
           | exact absurd hp (by simp))

theorem parseTimeTok_digits {t : List Char}
    (hall : ∀ c ∈ t, (charVal c).isSome = true) : parseTimeTok t = none := by
  unfold parseTimeTok
  dsimp only
  split_ifs with h3 ham hpm
  · rfl
  · exfalso
    have hmem : 'a' ∈ t.drop (t.length - 2) := by rw [ham]; decide
    have := hall 'a' (List.drop_subset _ t hmem)
    exact absurd this (by decide)
  · exfalso
    have hmem : 'p' ∈ t.drop (t.length - 2) := by rw [hpm]; decide
    have := hall 'p' (List.drop_subset _ t hmem)
    exact absurd this (by decide)
  · rfl

theorem dayNumTok_dec (d : Nat) : dayNumTok (dec d) = some d := by
  unfold dayNumTok
  obtain ⟨h1, h2⟩ := takeWhile_all (p := fun c => (charVal c).isSome) (dec d) (dec_all_digits d)
  rw [h1, h2, if_pos (Or.inl rfl), parseNat_dec]

/- Display-token packs: finite checks over weekday, month and clock-time
displays. -/

theorem dec_ne_nil (n : Nat) : dec n ≠ [] := by
  unfold dec
  split_ifs with h0
  · simp
  · have hne : Nat.digits 10 n ≠ [] := Nat.digits_ne_nil_iff_ne_zero.mpr h0
    rw [decAux_eq_digits n n (le_refl n)]
    simpa using hne

theorem dec_no_space (n : Nat) : ∀ c ∈ dec n, ¬ c = ' ' := by
  intro c hc he
  subst he
  have := dec_all_digits n ' ' hc
  exact absurd this (by decide)

theorem wd_facts : ∀ i, i < 7 →
    wdSingle (clean (wdDisp i)) = some i ∧
    clean (wdDisp i) ≠ [] ∧
    (∀ c ∈ clean (wdDisp i), ¬ c = ' ') ∧
    clean (wdDisp i) ≠ tok "im" ∧
    clean (wdDisp i) ≠ tok "me" ∧
    clean (wdDisp i) ≠ tok "until" ∧
    clean (wdDisp i) ≠ tok "for" ∧
    clean (wdDisp i) ≠ tok "every" := by
  decide

theorem mon_facts : ∀ m, m < 13 → 1 ≤ m →
    monthTok (clean (monDisp m)) = some m ∧
    clean (monDisp m) ≠ [] ∧
    (∀ c ∈ clean (monDisp m), ¬ c = ' ') ∧
    clean (monDisp m) ≠ tok "im" ∧
    clean (monDisp m) ≠ tok "me" ∧
    clean (monDisp m) ≠ tok "until" ∧
    clean (monDisp m) ≠ tok "for" := by
  decide

theorem time_facts : ∀ h, h < 23 →
    (timeDispTok (h + 1) 0 0).length = 1 ∧
    (∀ t ∈ timeDispTok (h + 1) 0 0,
      clean t = t ∧ parseTimeTok t = some (h + 1) ∧ t ≠ [] ∧ (∀ c ∈ t, ¬ c = ' ') ∧
      t ≠ tok "im" ∧ t ≠ tok "me" ∧ t ≠ tok "until" ∧ t ≠ tok "for") := by
  decide

/- Date rendering and reparsing: a rendered date (with optional clock time)
resolves back to the same timestamp. -/

theorem clean_dateDispToks (x : Date) :
    (dateDispToks x).map clean =
      [clean (wdDisp (weekday x)), clean (monDisp x.m), dec x.d, dec x.y] := by
  have h1 : clean (dec x.d ++ [',']) = dec x.d := by
    rw [clean_append, clean_dec]
    simp [clean]
  simp [dateDispToks, h1, clean_dec]

theorem parseDatePhrase_render (rf x : Date) (hh : Nat)
    (hm1 : 1 ≤ x.m) (hm2 : x.m ≤ 12) (hd1 : 1 ≤ x.d) (hd2 : x.d ≤ dim x.y x.m)
    (hhlt : hh < 24) :
    parseDatePhrase rf ((dateDispToks x ++ timeDispTok hh 0 0).map clean) =
      some ⟨x, hh, 0, 0⟩ := by
  obtain ⟨hwds, hwdne, hwdns, hwd1, hwd2, hwd3, hwd4⟩ := wd_facts (weekday x) (weekday_lt x)
  obtain ⟨hmon, hmonne, hmonns, hm3, hm4, hm5, hm6⟩ := mon_facts x.m (by omega) hm1
  rw [List.map_append, clean_dateDispToks]
  by_cases h0 : hh = 0
  · subst h0
    rw [show timeDispTok 0 0 0 = [] from rfl]
    rw [List.map_nil, List.append_nil]
    have htime : timeOf [clean (wdDisp (weekday x)), clean (monDisp x.m), dec x.d, dec x.y] =
        none := by
      unfold timeOf
      rw [show ([clean (wdDisp (weekday x)), clean (monDisp x.m), dec x.d,
        dec x.y]).getLast? = some (dec x.y) from rfl, Option.some_bind]
      exact parseTimeTok_digits (dec_all_digits x.y)
    unfold parseDatePhrase
    rw [htime]
    simp only [Option.getD_none, Option.isSome_none, Bool.false_eq_true, if_false]
    rw [show stripWd [clean (wdDisp (weekday x)), clean (monDisp x.m), dec x.d, dec x.y] =
        if (wdSingle (clean (wdDisp (weekday x)))).isSome then
          [clean (monDisp x.m), dec x.d, dec x.y]
        else [clean (wdDisp (weekday x)), clean (monDisp x.m), dec x.d, dec x.y] from rfl]
    rw [hwds]
    simp only [Option.isSome_some, if_true]
    simp only [dateFields, hmon, dayNumTok_dec, parseNat_dec, Option.some_bind]
    unfold mkDate
    rw [if_pos ⟨hd1, hd2⟩]
    rfl
  · obtain ⟨hlen, hfacts⟩ := time_facts (hh - 1) (by omega)
    have hsucc : hh - 1 + 1 = hh := by omega
    rw [hsucc] at hlen hfacts
    cases htt : timeDispTok hh 0 0 with
    | nil => rw [htt] at hlen; exact absurd hlen (by simp)
    | cons tt rest =>
      rw [htt] at hlen
      have hrest : rest = [] := by simpa using hlen
      subst hrest
      rw [htt] at hfacts
      obtain ⟨hcl, hpt, httne, httns, ht1, ht2, ht3, ht4⟩ := hfacts tt (by simp)
      rw [show ([tt] : List (List Char)).map clean = [clean tt] from rfl, hcl]
      have htime : timeOf ([clean (wdDisp (weekday x)), clean (monDisp x.m), dec x.d,
          dec x.y] ++ [tt]) = some hh := by
        unfold timeOf
        rw [show ([clean (wdDisp (weekday x)), clean (monDisp x.m), dec x.d, dec x.y] ++
          [tt]).getLast? = some tt from by simp, Option.some_bind]
        exact hpt
      unfold parseDatePhrase
      rw [htime]
      simp only [Option.getD_some, Option.isSome_some, if_true]
      rw [show ([clean (wdDisp (weekday x)), clean (monDisp x.m), dec x.d, dec x.y] ++
          [tt]).dropLast = [clean (wdDisp (weekday x)), clean (monDisp x.m), dec x.d,
          dec x.y] from by simp]
      rw [show stripWd [clean (wdDisp (weekday x)), clean (monDisp x.m), dec x.d, dec x.y] =
          if (wdSingle (clean (wdDisp (weekday x)))).isSome then
            [clean (monDisp x.m), dec x.d, dec x.y]
          else [clean (wdDisp (weekday x)), clean (monDisp x.m), dec x.d, dec x.y] from rfl]
      rw [hwds]
      simp only [Option.isSome_some, if_true]
      simp only [dateFields, hmon, dayNumTok_dec, parseNat_dec, Option.some_bind]
      unfold mkDate
      rw [if_pos ⟨hd1, hd2⟩]
      rfl

/- Rendered timestamps reparse to the same value through the full parse
pipeline. -/

theorem not_daily_long {ts : List (List Char)} (h : 3 ≤ ts.length) : ¬ ts ∈ dailyForms := by
  intro hm
  fin_cases hm <;> simp at h

theorem parseBase_long {a : List Char} {ts : List (List Char)} (hlen : 3 ≤ ts.length)
    (ha : a ≠ tok "every") : parseBase (a :: ts) = none := by
  have hnd : ¬ (a :: ts) ∈ dailyForms := not_daily_long (by simp; omega)
  cases ts with
  | nil => simp at hlen
  | cons b ts2 =>
    cases ts2 with
    | nil => simp at hlen
    | cons c ts3 =>
      cases ts3 with
      | nil => simp at hlen
      | cons d ts4 =>
        unfold parseBase
        rw [if_neg hnd]
        show (if a = tok "every" then everyList (b :: c :: d :: ts4) else none) = none
        rw [if_neg ha]

theorem parseAbs_render (rf x : Date) (hh : Nat)
    (hm1 : 1 ≤ x.m) (hm2 : x.m ≤ 12) (hd1 : 1 ≤ x.d) (hd2 : x.d ≤ dim x.y x.m)
    (hhlt : hh < 24) :
    parseAbs rf ((dateDispToks x ++ timeDispTok hh 0 0).map clean) = some ⟨x, hh, 0, 0⟩ :=
  parseDatePhrase_render rf x hh hm1 hm2 hd1 hd2 hhlt

theorem parse_render_timestamp (rf x : Date) (hh : Nat)
    (hm1 : 1 ≤ x.m) (hm2 : x.m ≤ 12) (hd1 : 1 ≤ x.d) (hd2 : x.d ≤ dim x.y x.m)
    (hhlt : hh < 24) :
    RecurringEvent.parse rf
        (String.mk (joinBy ' ' (dateDispToks x ++ timeDispTok hh 0 0))) =
      .timestamp ⟨x, hh, 0, 0⟩ := by
  obtain ⟨hwds, hwdne, hwdns, hwd1, hwd2, hwd3, hwd4, hwd5⟩ :=
    wd_facts (weekday x) (weekday_lt x)
  obtain ⟨hmon, hmonne, hmonns, hm3, hm4, hm5, hm6⟩ := mon_facts x.m (by omega) hm1
  have hfd : charVal 'f' = none := by decide
  have hud : charVal 'u' = none := by decide
  have hdd : dec x.d ≠ [] := dec_ne_nil x.d
  have hyd : dec x.y ≠ [] := dec_ne_nil x.y
  -- the cleaned token list
  have hmap4 : (dateDispToks x).map clean =
      [clean (wdDisp (weekday x)), clean (monDisp x.m), dec x.d, dec x.y] :=
    clean_dateDispToks x
  have habs := parseAbs_render rf x hh hm1 hm2 hd1 hd2 hhlt
  -- facts about every token of the cleaned list
  have htoksfacts : ∀ t ∈ (dateDispToks x ++ timeDispTok hh 0 0).map clean,
      t ≠ [] ∧ (∀ c ∈ t, ¬ c = ' ') ∧ t ≠ tok "until" ∧ t ≠ tok "for" := by
    intro t ht
    rw [List.map_append, hmap4] at ht
    simp only [List.mem_append, List.mem_cons, List.not_mem_nil, or_false] at ht
    rcases ht with ((rfl | rfl | rfl | rfl) | ht)
    · exact ⟨hwdne, hwdns, hwd3, hwd4⟩
    · exact ⟨hmonne, hmonns, hm5, hm6⟩
    · exact ⟨hdd, dec_no_space x.d,
        ne_of_digit_free (dec_all_digits x.d) hud (by decide),
        ne_of_digit_free (dec_all_digits x.d) hfd (by decide)⟩
    · exact ⟨hyd, dec_no_space x.y,
        ne_of_digit_free (dec_all_digits x.y) hud (by decide),
        ne_of_digit_free (dec_all_digits x.y) hfd (by decide)⟩
    · -- time token
      by_cases h0 : hh = 0
      · subst h0
        rw [show timeDispTok 0 0 0 = [] from rfl] at ht
        simp at ht
      · obtain ⟨hlen, hfacts⟩ := time_facts (hh - 1) (by omega)
        have hsucc : hh - 1 + 1 = hh := by omega
        rw [hsucc] at hfacts
        simp only [List.mem_map] at ht
        obtain ⟨u, hu, rfl⟩ := ht
        obtain ⟨hcl, _, hune, huns, _, _, hu3, hu4⟩ := hfacts u hu
        rw [hcl]
        exact ⟨hune, huns, hu3, hu4⟩
  have hnorm : normalize (String.mk (joinBy ' ' (dateDispToks x ++ timeDispTok hh 0 0))) =
      (dateDispToks x ++ timeDispTok hh 0 0).map clean := by
    unfold normalize
    rw [show (String.mk (joinBy ' ' (dateDispToks x ++ timeDispTok hh 0 0))).data =
      joinBy ' ' (dateDispToks x ++ timeDispTok hh 0 0) from rfl]
    rw [clean_joinBy ' ' rfl]
    rw [wordsBy_joinBy ' ' _ (fun t ht => ⟨(htoksfacts t ht).1, (htoksfacts t ht).2.1⟩)]
    refine stripCT_eq_self ?_ ?_
    · intro u hu
      rw [List.map_append, hmap4] at hu
      rw [show ([clean (wdDisp (weekday x)), clean (monDisp x.m), dec x.d, dec x.y] ++
        (timeDispTok hh 0 0).map clean).head? = some (clean (wdDisp (weekday x))) from rfl]
        at hu
      cases hu
      exact hwd1
    · intro u hu
      have hum : u ∈ (dateDispToks x ++ timeDispTok hh 0 0).map clean :=
        List.mem_of_mem_getLast? hu
      intro he
      subst he
      rw [List.map_append, hmap4] at hum
      simp only [List.mem_append, List.mem_cons, List.not_mem_nil, or_false] at hum
      rcases hum with ((h' | h' | h' | h') | h')
      · exact hwd2 h'.symm
      · exact hm4 h'.symm
      · exact ne_of_digit_free (dec_all_digits x.d)
          (show charVal 'm' = none from by decide) (show 'm' ∈ tok "me" from by decide) h'.symm
      · exact ne_of_digit_free (dec_all_digits x.y)
          (show charVal 'm' = none from by decide) (show 'm' ∈ tok "me" from by decide) h'.symm
      · by_cases h0 : hh = 0
        · subst h0
          rw [show timeDispTok 0 0 0 = [] from rfl] at h'
          simp at h'
        · obtain ⟨hlen, hfacts⟩ := time_facts (hh - 1) (by omega)
          have hsucc : hh - 1 + 1 = hh := by omega
          rw [hsucc] at hfacts
          simp only [List.mem_map] at h'
          obtain ⟨u, hu', he'⟩ := h'
          obtain ⟨hcl, _, _, _, _, hu2, _, _⟩ := hfacts u hu'
          rw [hcl] at he'
          exact hu2 he'
  have hrec : parseRecurring rf ((dateDispToks x ++ timeDispTok hh 0 0).map clean) = none := by
    unfold parseRecurring
    rw [splitAtTok_none _ (fun t ht => (htoksfacts t ht).2.2.1),
      splitAtTok_none _ (fun t ht => (htoksfacts t ht).2.2.2)]
    simp only [Option.elim_none]
    rw [List.map_append, hmap4]
    exact parseBase_long (by simp) hwd5
  unfold RecurringEvent.parse
  rw [hnorm, hrec, habs]
  rfl

/- C4 machinery: bitmask bounds, parse inversion (field shapes and calendar
validity of every producible rule and timestamp), serialized-field scanning,
formatter computation on serialized rules, and reparsing of rendered output. -/


theorem shiftLeft_lt_128 {k : Nat} (hk : k < 7) : (1 <<< k) < 128 := by
  rw [Nat.shiftLeft_eq, Nat.one_mul]
  calc 2 ^ k ≤ 2 ^ 6 := Nat.pow_le_pow_right (by norm_num) (by omega)
    _ < 128 := by norm_num

theorem or_lt_128 {a b : Nat} (ha : a < 128) (hb : b < 128) : (a ||| b) < 128 := by
  have := Nat.or_lt_two_pow (n := 7) (x := a) (y := b) (by simpa using ha) (by simpa using hb)
  simpa using this

theorem maskRange_lt (i j : Nat) : maskRange i j < 128 := by
  unfold maskRange
  have hgen : ∀ (l : List Nat) (a : Nat), (∀ k ∈ l, k < 7) → a < 128 →
      (l.foldl
        (fun a k =>
          if (if i ≤ j then i ≤ k && k ≤ j else i ≤ k || k ≤ j) then a ||| (1 <<< k) else a)
        a) < 128 := by
    intro l
    induction l with
    | nil => intro a _ ha; exact ha
    | cons k ks ih =>
      intro a hk ha
      simp only [List.foldl]
      refine ih _ (fun x hx => hk x (by simp [hx])) ?_
      split_ifs <;>
        first
        | exact or_lt_128 ha (shiftLeft_lt_128 (hk k (by simp)))
        | exact ha
  exact hgen (List.range 7) 0 (fun k hk => by simp [List.mem_range] at hk; omega) (by norm_num)

theorem itemMask_lt {t : List Char} {m : Nat} (h : itemMask t = some m) : m < 128 := by
  unfold itemMask at h
  cases hw : wdSingle t with
  | some i =>
    rw [hw] at h
    simp at h
    subst h
    exact shiftLeft_lt_128 (wdSingle_lt hw)
  | none =>
    rw [hw] at h
    split_ifs at h <;> simp at h <;> omega

theorem andItems_lt : ∀ (ts : List (List Char)) (m : Nat), andItems ts = some m → m < 128 := by
  intro ts
  generalize hn : ts.length = n
  induction n using Nat.strong_induction_on generalizing ts with
  | _ n ihn =>
  subst hn
  match ts with
  | [] => intro m h; exact absurd h (by simp [andItems])
  | [t] => intro m h; exact itemMask_lt h
  | t :: a :: rest =>
    intro m h
    rw [show andItems (t :: a :: rest) =
      (if a = tok "and" then (itemMask t).bind fun x => (andItems rest).map fun y => x ||| y
       else none) from rfl] at h
    split_ifs at h with ha
    · cases h2 : itemMask t with
      | none => rw [h2] at h; exact absurd h (by simp)
      | some x =>
        cases h3 : andItems rest with
        | none => rw [h2, h3] at h; exact absurd h (by simp)
        | some y =>
          rw [h2, h3] at h
          simp at h
          subst h
          exact or_lt_128 (itemMask_lt h2) (ihn rest.length (by simp; omega) rest rfl y h3)


theorem addUnits_valid (u : DUnit) (n : Nat) {x : Date} (h : ValidDate x) :
    ValidDate (addUnits u n x) := by
  cases u
  · exact addDays_valid n h
  · exact addDays_valid (7 * n) h
  · exact addMonths_valid n h
  · exact addMonths_valid (12 * n) h

theorem parseDur_valid {refd : Date} {ds : List (List Char)} {x : Date}
    (hv : ValidDate refd) (h : parseDur refd ds = some x) : ValidDate x := by
  unfold parseDur at h
  split at h
  · split at h
    · simp only [Option.some.injEq] at h
      subst h
      exact addUnits_valid _ _ hv
    · exact absurd h (by simp)
  · split at h
    · simp only [Option.some.injEq] at h
      subst h
      exact addUnits_valid _ _ hv
    · exact absurd h (by simp)
  · exact absurd h (by simp)

theorem mkDate_valid {y m d : Nat} {x : Date} (h : mkDate y m d = some x)
    (hm1 : 1 ≤ m) (hm2 : m ≤ 12) : ValidDate x := by
  unfold mkDate at h
  split_ifs at h with hc
  simp only [Option.some.injEq] at h
  subst h
  exact ⟨hm1, hm2, hc.1, hc.2⟩

theorem dateFields_inv {refd : Date} {h0 : Nat} {ts : List (List Char)} {dt : DateTime}
    (h : dateFields refd h0 ts = some dt) :
    ValidDate dt.date ∧ dt.hh = h0 ∧ dt.mi = 0 ∧ dt.ss = 0 := by
  unfold dateFields at h
  split at h
  · cases hmt : monthTok _ with
    | none => rw [hmt] at h; exact absurd h (by simp)
    | some m =>
      rw [hmt, Option.some_bind] at h
      cases hd : dayNumTok _ with
      | none => rw [hd] at h; exact absurd h (by simp)
      | some d =>
        rw [hd, Option.some_bind] at h
        cases hmk : mkDate refd.y m d with
        | none => rw [hmk] at h; exact absurd h (by simp)
        | some xd =>
          rw [hmk, Option.map_some'] at h
          simp only [Option.some.injEq] at h
          subst h
          exact ⟨mkDate_valid hmk (monthTok_bounds hmt).1 (monthTok_bounds hmt).2, rfl, rfl, rfl⟩
  · cases hmt : monthTok _ with
    | none => rw [hmt] at h; exact absurd h (by simp)
    | some m =>
      rw [hmt, Option.some_bind] at h
      cases hd : dayNumTok _ with
      | none => rw [hd] at h; exact absurd h (by simp)
      | some d =>
        rw [hd, Option.some_bind] at h
        cases hy : parseNat _ with
        | none => rw [hy] at h; exact absurd h (by simp)
        | some yy =>
          rw [hy, Option.some_bind] at h
          cases hmk : mkDate yy m d with
          | none => rw [hmk] at h; exact absurd h (by simp)
          | some xd =>
            rw [hmk, Option.map_some'] at h
            simp only [Option.some.injEq] at h
            subst h
            exact ⟨mkDate_valid hmk (monthTok_bounds hmt).1 (monthTok_bounds hmt).2,
              rfl, rfl, rfl⟩
  · exact absurd h (by simp)

theorem timeOf_lt {ts : List (List Char)} {h : Nat} (hp : timeOf ts = some h) : h < 24 := by
  unfold timeOf at hp
  cases hl : ts.getLast? with
  | none => rw [hl] at hp; exact absurd hp (by simp)
  | some t =>
    rw [hl, Option.some_bind] at hp
    exact parseTimeTok_lt hp

theorem parseDatePhrase_inv {refd : Date} {ts : List (List Char)} {dt : DateTime}
    (h : parseDatePhrase refd ts = some dt) :
    ValidDate dt.date ∧ dt.hh < 24 ∧ dt.mi = 0 ∧ dt.ss = 0 := by
  unfold parseDatePhrase at h
  obtain ⟨h1, h2, h3, h4⟩ := dateFields_inv h
  refine ⟨h1, ?_, h3, h4⟩
  rw [h2]
  cases hti : timeOf ts with
  | none => simp
  | some k =>
    rw [Option.getD_some]
    exact timeOf_lt hti

theorem parseAbs_inv {refd : Date} {ts : List (List Char)} {dt : DateTime}
    (hv : ValidDate refd) (h : parseAbs refd ts = some dt) :
    ValidDate dt.date ∧ dt.hh < 24 ∧ dt.mi = 0 ∧ dt.ss = 0 := by
  unfold parseAbs at h
  split at h
  · split_ifs at h with ht
    · simp only [Option.some.injEq] at h
      subst h
      exact ⟨addDays_valid 1 hv, by norm_num, rfl, rfl⟩
    · exact parseDatePhrase_inv h
  · split_ifs at h with hn
    · split at h
      · simp only [Option.some.injEq] at h
        subst h
        exact ⟨addDays_valid _ hv, by norm_num, rfl, rfl⟩
      · exact parseDatePhrase_inv h
    · exact parseDatePhrase_inv h
  · exact parseDatePhrase_inv h

theorem parseDateOnly_valid {refd : Date} {ts : List (List Char)} {x : Date}
    (hv : ValidDate refd) (h : parseDateOnly refd ts = some x) : ValidDate x := by
  unfold parseDateOnly at h
  cases ha : parseAbs refd ts with
  | none => rw [ha] at h; exact absurd h (by simp)
  | some dt =>
    rw [ha, Option.map_some'] at h
    simp only [Option.some.injEq] at h
    subst h
    exact (parseAbs_inv hv ha).1

theorem parseBase_inv {ts : List (List Char)} {r : Rule} (h : parseBase ts = some r) :
    r.interval = 1 ∧ r.byday < 128 ∧ r.untl = none ∧
      (r.freq ≠ .weekly → r.byday = 0) := by
  unfold parseBase at h
  split_ifs at h with hdf
  · simp only [Option.some.injEq] at h
    subst h
    exact ⟨rfl, by norm_num [mkRule], rfl, fun _ => rfl⟩
  · split at h
    · cases hf : freqTok _ with
      | none => rw [hf] at h; exact absurd h (by simp)
      | some f =>
        rw [hf, Option.map_some'] at h
        simp only [Option.some.injEq] at h
        subst h
        exact ⟨rfl, by norm_num [mkRule], rfl, fun _ => rfl⟩
    · split_ifs at h with hb
      unfold throughRange at h
      cases hi : wdSingle _ with
      | none => rw [hi] at h; exact absurd h (by simp)
      | some i =>
        rw [hi, Option.some_bind] at h
        cases hj : wdSingle _ with
        | none => rw [hj] at h; exact absurd h (by simp)
        | some j =>
          rw [hj, Option.map_some'] at h
          simp only [Option.some.injEq] at h
          subst h
          exact ⟨rfl, maskRange_lt i j, rfl, fun hne => absurd rfl hne⟩
    · split_ifs at h with ht
      unfold everyList at h
      cases hm : andItems _ with
      | none => rw [hm] at h; exact absurd h (by simp)
      | some m =>
        rw [hm, Option.some_bind] at h
        split_ifs at h with h0
        simp only [Option.some.injEq] at h
        subst h
        exact ⟨rfl, andItems_lt _ m hm, rfl, fun hne => absurd rfl hne⟩
    · exact absurd h (by simp)

theorem parseRecurring_inv {refd : Date} {ts : List (List Char)} {r : Rule}
    (hv : ValidDate refd) (h : parseRecurring refd ts = some r) :
    r.interval = 1 ∧ r.byday < 128 ∧ (∀ x, r.untl = some x → ValidDate x) ∧
      (r.freq ≠ .weekly → r.byday = 0) := by
  unfold parseRecurring at h
  cases hu : splitAtTok (tok "until") ts with
  | some p =>
    rw [hu] at h
    simp only [Option.elim_some] at h
    unfold withUntil at h
    cases hb : parseBase p.1 with
    | none => rw [hb] at h; exact absurd h (by simp)
    | some r0 =>
      rw [hb, Option.some_bind] at h
      cases hd : parseDateOnly refd p.2 with
      | none => rw [hd] at h; exact absurd h (by simp)
      | some x =>
        rw [hd, Option.map_some'] at h
        simp only [Option.some.injEq] at h
        subst h
        obtain ⟨h1, h2, _, h4⟩ := parseBase_inv hb
        refine ⟨h1, h2, ?_, h4⟩
        intro y hy
        simp only [Option.some.injEq] at hy
        subst hy
        exact parseDateOnly_valid hv hd
  | none =>
    rw [hu] at h
    simp only [Option.elim_none] at h
    cases hf : splitAtTok (tok "for") ts with
    | none =>
      rw [hf] at h
      simp only [Option.elim_none] at h
      obtain ⟨h1, h2, h3, h4⟩ := parseBase_inv h
      exact ⟨h1, h2, fun x hx => absurd (h3 ▸ hx) (by simp), h4⟩
    | some p =>
      rw [hf] at h
      simp only [Option.elim_some] at h
      unfold durTail at h
      split at h
      · split_ifs at h with hg
        cases hb : parseBase _ with
        | none => rw [hb] at h; exact absurd h (by simp)
        | some r0 =>
          rw [hb, Option.some_bind] at h
          cases hd : parseDur refd _ with
          | none => rw [hd] at h; exact absurd h (by simp)
          | some x =>
            rw [hd, Option.map_some'] at h
            simp only [Option.some.injEq] at h
            subst h
            obtain ⟨h1, h2, _, h4⟩ := parseBase_inv hb
            refine ⟨h1, h2, ?_, h4⟩
            intro y hy
            simp only [Option.some.injEq] at hy
            subst hy
            exact parseDur_valid hv hd
      · exact absurd h (by simp)

theorem parse_eq_of_recurring {refd : Date} {s : String} {r : Rule}
    (h : parseRecurring refd (normalize s) = some r) :
    RecurringEvent.parse refd s = .rrule (String.mk (serialize r)) := by
  unfold RecurringEvent.parse
  rw [h, Option.map_some', Option.getD_some]

theorem parse_eq_of_abs {refd : Date} {s : String}
    (h : parseRecurring refd (normalize s) = none) :
    RecurringEvent.parse refd s =
      (parseAbs refd (normalize s)).elim ParseOutcome.noMatch ParseOutcome.timestamp := by
  unfold RecurringEvent.parse
  rw [h, Option.map_none', Option.getD_none]


theorem serialize_fields (f : Freq) (m : Nat) (u : Option Date) :
    serialize ⟨f, 1, m, u⟩ =
      tok "RRULE:" ++ joinBy ';'
        ([tok "FREQ=" ++ freqU f, tok "INTERVAL=1"] ++
          (if m = 0 then [] else [tok "BYDAY=" ++ bydayVal m]) ++
          (match u with
           | none => []
           | some x => [tok "UNTIL=" ++ untilVal x])) := by
  have h1 : tok "RRULE:FREQ=" = tok "RRULE:" ++ tok "FREQ=" := by decide
  have h2 : tok ";INTERVAL=" ++ dec 1 = ';' :: tok "INTERVAL=1" := by decide
  have h3 : ∀ v : List Char, tok ";BYDAY=" ++ v = ';' :: (tok "BYDAY=" ++ v) := by
    intro v
    rfl
  have h4 : ∀ v : List Char, tok ";UNTIL=" ++ v = ';' :: (tok "UNTIL=" ++ v) := by
    intro v
    rfl
  cases u with
  | none =>
    by_cases hm : m = 0
    · simp only [serialize, hm, if_true, if_pos, List.append_nil]
      rw [h1]
      show _ = tok "RRULE:" ++ ((tok "FREQ=" ++ freqU f) ++ ';' :: tok "INTERVAL=1")
      simp [List.append_assoc, h2]
    · simp only [serialize, hm, if_false, if_neg, List.append_nil]
      rw [h1]
      show _ = tok "RRULE:" ++
        ((tok "FREQ=" ++ freqU f) ++ ';' :: (tok "INTERVAL=1" ++ ';' ::
          (tok "BYDAY=" ++ bydayVal m)))
      simp [List.append_assoc, h2, h3]
  | some x =>
    by_cases hm : m = 0
    · simp only [serialize, hm, if_true, if_pos, List.append_nil]
      rw [h1]
      show _ = tok "RRULE:" ++
        ((tok "FREQ=" ++ freqU f) ++ ';' :: (tok "INTERVAL=1" ++ ';' ::
          (tok "UNTIL=" ++ untilVal x)))
      simp [List.append_assoc, h2, h4]
    · simp only [serialize, hm, if_false, if_neg, List.append_nil]
      rw [h1]
      show _ = tok "RRULE:" ++
        ((tok "FREQ=" ++ freqU f) ++ ';' :: (tok "INTERVAL=1" ++ ';' ::
          ((tok "BYDAY=" ++ bydayVal m) ++ ';' :: (tok "UNTIL=" ++ untilVal x))))
      simp [List.append_assoc, h2, h3, h4]

theorem kvKey_field {k v : List Char} (hk : ∀ c ∈ k, (c != '=') = true) :
    kvKey (k ++ '=' :: v) = k ∧ kvVal (k ++ '=' :: v) = v := by
  obtain ⟨h1, h2⟩ := takeWhile_key (p := fun c => c != '=') (x := '=') (by decide) k v hk
  constructor
  · exact h1
  · unfold kvVal
    rw [h2]
    rfl

theorem kv_freq (v : List Char) :
    kvKey (tok "FREQ=" ++ v) = tok "FREQ" ∧ kvVal (tok "FREQ=" ++ v) = v := by
  have he : tok "FREQ=" ++ v = tok "FREQ" ++ '=' :: v := by
    have : tok "FREQ=" = tok "FREQ" ++ ['='] := by decide
    rw [this, List.append_assoc]
    rfl
  rw [he]
  exact kvKey_field (by decide)

theorem kv_byday (v : List Char) :
    kvKey (tok "BYDAY=" ++ v) = tok "BYDAY" ∧ kvVal (tok "BYDAY=" ++ v) = v := by
  have he : tok "BYDAY=" ++ v = tok "BYDAY" ++ '=' :: v := by
    have : tok "BYDAY=" = tok "BYDAY" ++ ['='] := by decide
    rw [this, List.append_assoc]
    rfl
  rw [he]
  exact kvKey_field (by decide)

theorem kv_until (v : List Char) :
    kvKey (tok "UNTIL=" ++ v) = tok "UNTIL" ∧ kvVal (tok "UNTIL=" ++ v) = v := by
  have he : tok "UNTIL=" ++ v = tok "UNTIL" ++ '=' :: v := by
    have : tok "UNTIL=" = tok "UNTIL" ++ ['='] := by decide
    rw [this, List.append_assoc]
    rfl
  rw [he]
  exact kvKey_field (by decide)

theorem getV_cons_eq {f : List Char} {r : List (List Char)} {k : List Char}
    (h : kvKey f = k) : getV (f :: r) k = some (kvVal f) := by
  unfold getV
  rw [if_pos h]

theorem getV_cons_ne {f : List Char} {r : List (List Char)} {k : List Char}
    (h : kvKey f ≠ k) : getV (f :: r) k = getV r k := by
  show (if kvKey f = k then some (kvVal f) else getV r k) = getV r k
  rw [if_neg h]

theorem padTo_len_ge (k : Nat) (l : List Char) : k ≤ (padTo k l).length := by
  unfold padTo
  rw [List.length_append, List.length_replicate]
  omega

theorem untilVal_digits (x : Date) : ∀ c ∈ untilVal x, (charVal c).isSome = true := by
  intro c hc
  unfold untilVal at hc
  simp only [padTo, List.mem_append, List.mem_replicate] at hc
  rcases hc with ((h | h) | h) | h
  · rw [h.2]; decide
  · exact dec_all_digits _ c h
  · rcases h with (h | h)
    · rw [h.2]; decide
    · exact dec_all_digits _ c h
  · rcases h with (h | h)
    · rw [h.2]; decide
    · exact dec_all_digits _ c h

theorem parseUntilVal_untilVal {x : Date} (hm : x.m < 100) (hd : x.d < 100) :
    parseUntilVal (untilVal x) = some x := by
  have hb : (padTo 2 (dec x.m)).length = 2 :=
    padTo_length (dec_length_le (n := x.m) (k := 2) (by norm_num) (by omega)).1
  have hc : (padTo 2 (dec x.d)).length = 2 :=
    padTo_length (dec_length_le (n := x.d) (k := 2) (by norm_num) (by omega)).1
  have ha4 : 4 ≤ (padTo 4 (dec x.y)).length := padTo_len_ge 4 (dec x.y)
  unfold parseUntilVal untilVal
  set a := padTo 4 (dec x.y) with hadef
  set b := padTo 2 (dec x.m) with hbdef
  set c := padTo 2 (dec x.d) with hcdef
  have hlen : (a ++ b ++ c).length = a.length + 4 := by
    rw [List.length_append, List.length_append, hb, hc]
  rw [hlen]
  rw [if_neg (by omega)]
  have htake : (a ++ b ++ c).take (a.length + 4 - 4) = a := by
    rw [show a.length + 4 - 4 = a.length from by omega, List.append_assoc]
    exact List.take_left' rfl
  have hdrop : (a ++ b ++ c).drop (a.length + 4 - 4) = b ++ c := by
    rw [show a.length + 4 - 4 = a.length from by omega, List.append_assoc]
    exact List.drop_left' rfl
  have hdrop2 : (a ++ b ++ c).drop (a.length + 4 - 2) = c := by
    rw [show a.length + 4 - 2 = (a ++ b).length from by
      rw [List.length_append, hb]; omega]
    exact List.drop_left' rfl
  rw [htake, hdrop, hdrop2]
  rw [List.take_left' hb]
  rw [hadef, hbdef, hcdef, parseNat_padTo, parseNat_padTo, parseNat_padTo]


theorem byday_pack : ∀ m, m < 128 →
    (m = 0 ∨ parseBydayVal (bydayVal m) = some m) ∧
    (∀ c ∈ bydayVal m, ¬ c = ';') := by decide

theorem parseBydayVal_bydayVal {m : Nat} (h : m < 128) (h0 : m ≠ 0) :
    parseBydayVal (bydayVal m) = some m :=
  ((byday_pack m h).1).resolve_left h0

theorem bydayVal_no_semi {m : Nat} (h : m < 128) : ∀ c ∈ bydayVal m, ¬ c = ';' :=
  (byday_pack m h).2

theorem untilVal_no_semi (x : Date) : ∀ c ∈ untilVal x, ¬ c = ';' := by
  intro c hc he
  subst he
  have := untilVal_digits x ';' hc
  exact absurd this (by decide)

theorem fields_ok (f : Freq) (m : Nat) (u : Option Date)
    (hs : ∀ c ∈ bydayVal m, ¬ c = ';') :
    ∀ t ∈ ([tok "FREQ=" ++ freqU f, tok "INTERVAL=1"] ++
        (if m = 0 then [] else [tok "BYDAY=" ++ bydayVal m]) ++
        (match u with
         | none => []
         | some x => [tok "UNTIL=" ++ untilVal x])),
      t ≠ [] ∧ ∀ c ∈ t, ¬ c = ';' := by
  intro t ht
  simp only [List.append_assoc, List.mem_append, List.mem_cons, List.not_mem_nil,
    or_false] at ht
  rcases ht with (rfl | rfl) | ht
  · cases f <;> exact ⟨by decide, by decide⟩
  · exact ⟨by decide, by decide⟩
  rcases ht with hb | hu
  · have hbt : t = tok "BYDAY=" ++ bydayVal m := by
      by_cases hm : m = 0
      · rw [if_pos hm] at hb
        simp at hb
      · rw [if_neg hm] at hb
        simpa using hb
    subst hbt
    refine ⟨by simp [show tok "BYDAY=" = 'B' :: tok "YDAY=" from by decide], ?_⟩
    intro c hc
    rcases List.mem_append.mp hc with h | h
    · have hall : ∀ a ∈ tok "BYDAY=", ¬ a = ';' := by decide
      exact hall c h
    · exact hs c h
  · cases u with
    | none => simp at hu
    | some x =>
      simp only [List.mem_cons, List.not_mem_nil, or_false] at hu
      subst hu
      refine ⟨by simp [show tok "UNTIL=" = 'U' :: tok "NTIL=" from by decide], ?_⟩
      intro c hc
      rcases List.mem_append.mp hc with h | h
      · have hall : ∀ a ∈ tok "UNTIL=", ¬ a = ';' := by decide
        exact hall c h
      · exact untilVal_no_semi x c h

theorem formatRRule_serialize (f : Freq) (m : Nat) (u : Option Date)
    (hs : ∀ c ∈ bydayVal m, ¬ c = ';') :
    formatRRuleChars (serialize ⟨f, 1, m, u⟩) =
      formatFields
        ([tok "FREQ=" ++ freqU f, tok "INTERVAL=1"] ++
          (if m = 0 then [] else [tok "BYDAY=" ++ bydayVal m]) ++
          (match u with
           | none => []
           | some x => [tok "UNTIL=" ++ untilVal x])) := by
  rw [serialize_fields]
  unfold formatRRuleChars
  rw [show tok "RRULE:" = 'R' :: tok "RULE:" from by decide, findAfter_same,
    Option.some_bind]
  rw [wordsBy_joinBy ';' _ (fields_ok f m u hs)]


theorem formatRRule_daily (u : Option Date) (hu : ∀ x, u = some x → x.m < 100 ∧ x.d < 100) :
    formatRRuleChars (serialize ⟨.daily, 1, 0, u⟩) =
      some (joinBy ' ' (ruleBaseToks .daily 1 0 ++ untilToks u)) := by
  rw [formatRRule_serialize .daily 0 u (by decide)]
  cases u with
  | none => decide
  | some x =>
    obtain ⟨hm100, hd100⟩ := hu x rfl
    show formatFields
      [tok "FREQ=" ++ freqU .daily, tok "INTERVAL=1", tok "UNTIL=" ++ untilVal x] = _
    have hfreq : getV
        [tok "FREQ=" ++ freqU .daily, tok "INTERVAL=1", tok "UNTIL=" ++ untilVal x]
        (tok "FREQ") = some (tok "DAILY") := rfl
    have hint : intervalOf
        [tok "FREQ=" ++ freqU .daily, tok "INTERVAL=1", tok "UNTIL=" ++ untilVal x] =
        some 1 := rfl
    have huntil : getV
        [tok "FREQ=" ++ freqU .daily, tok "INTERVAL=1", tok "UNTIL=" ++ untilVal x]
        (tok "UNTIL") = some (untilVal x) := by
      show getV [tok "UNTIL=" ++ untilVal x] (tok "UNTIL") = some (untilVal x)
      rw [getV_cons_eq (kv_until (untilVal x)).1, (kv_until (untilVal x)).2]
    have huof : untilOf
        [tok "FREQ=" ++ freqU .daily, tok "INTERVAL=1", tok "UNTIL=" ++ untilVal x] =
        some (some x) := by
      unfold untilOf
      rw [huntil, Option.elim_some, parseUntilVal_untilVal hm100 hd100, Option.map_some']
    unfold formatFields
    rw [hfreq, Option.some_bind, hint, Option.some_bind, huof, Option.some_bind]
    rw [if_pos rfl]

theorem formatRRule_weekly (m : Nat) (u : Option Date) (hm : m < 128) (h0 : m ≠ 0)
    (hu : ∀ x, u = some x → x.m < 100 ∧ x.d < 100) :
    formatRRuleChars (serialize ⟨.weekly, 1, m, u⟩) =
      some (joinBy ' ' (ruleBaseToks .weekly 1 m ++ untilToks u)) := by
  rw [formatRRule_serialize .weekly m u (bydayVal_no_semi hm)]
  rw [if_neg h0]
  cases u with
  | none =>
    show formatFields
      [tok "FREQ=" ++ freqU .weekly, tok "INTERVAL=1", tok "BYDAY=" ++ bydayVal m] = _
    have hfreq : getV
        [tok "FREQ=" ++ freqU .weekly, tok "INTERVAL=1", tok "BYDAY=" ++ bydayVal m]
        (tok "FREQ") = some (tok "WEEKLY") := rfl
    have hint : intervalOf
        [tok "FREQ=" ++ freqU .weekly, tok "INTERVAL=1", tok "BYDAY=" ++ bydayVal m] =
        some 1 := rfl
    have hby : getV
        [tok "FREQ=" ++ freqU .weekly, tok "INTERVAL=1", tok "BYDAY=" ++ bydayVal m]
        (tok "BYDAY") = some (bydayVal m) := by
      show getV [tok "BYDAY=" ++ bydayVal m] (tok "BYDAY") = some (bydayVal m)
      rw [getV_cons_eq (kv_byday (bydayVal m)).1, (kv_byday (bydayVal m)).2]
    have huof : untilOf
        [tok "FREQ=" ++ freqU .weekly, tok "INTERVAL=1", tok "BYDAY=" ++ bydayVal m] =
        some none := by
      unfold untilOf
      rw [show getV [tok "FREQ=" ++ freqU .weekly, tok "INTERVAL=1",
        tok "BYDAY=" ++ bydayVal m] (tok "UNTIL") = none from by
          show getV [tok "BYDAY=" ++ bydayVal m] (tok "UNTIL") = none
          rw [getV_cons_ne (by rw [(kv_byday (bydayVal m)).1]; decide)]
          rfl]
      rfl
    unfold formatFields
    rw [hfreq, Option.some_bind, hint, Option.some_bind, huof, Option.some_bind]
    rw [if_neg (by decide), if_pos rfl]
    unfold renderWeekly
    rw [hby, Option.some_bind, parseBydayVal_bydayVal hm h0, Option.some_bind,
      if_neg h0]
  | some x =>
    obtain ⟨hm100, hd100⟩ := hu x rfl
    show formatFields
      [tok "FREQ=" ++ freqU .weekly, tok "INTERVAL=1", tok "BYDAY=" ++ bydayVal m,
        tok "UNTIL=" ++ untilVal x] = _
    have hfreq : getV
        [tok "FREQ=" ++ freqU .weekly, tok "INTERVAL=1", tok "BYDAY=" ++ bydayVal m,
          tok "UNTIL=" ++ untilVal x] (tok "FREQ") = some (tok "WEEKLY") := rfl
    have hint : intervalOf
        [tok "FREQ=" ++ freqU .weekly, tok "INTERVAL=1", tok "BYDAY=" ++ bydayVal m,
          tok "UNTIL=" ++ untilVal x] = some 1 := rfl
    have hby : getV
        [tok "FREQ=" ++ freqU .weekly, tok "INTERVAL=1", tok "BYDAY=" ++ bydayVal m,
          tok "UNTIL=" ++ untilVal x] (tok "BYDAY") = some (bydayVal m) := by
      show getV [tok "BYDAY=" ++ bydayVal m, tok "UNTIL=" ++ untilVal x] (tok "BYDAY") =
        some (bydayVal m)
      rw [getV_cons_eq (kv_byday (bydayVal m)).1, (kv_byday (bydayVal m)).2]
    have huof : untilOf
        [tok "FREQ=" ++ freqU .weekly, tok "INTERVAL=1", tok "BYDAY=" ++ bydayVal m,
          tok "UNTIL=" ++ untilVal x] = some (some x) := by
      unfold untilOf
      rw [show getV [tok "FREQ=" ++ freqU .weekly, tok "INTERVAL=1",
        tok "BYDAY=" ++ bydayVal m, tok "UNTIL=" ++ untilVal x] (tok "UNTIL") =
          some (untilVal x) from by
          show getV [tok "BYDAY=" ++ bydayVal m, tok "UNTIL=" ++ untilVal x]
            (tok "UNTIL") = some (untilVal x)
          rw [getV_cons_ne (by rw [(kv_byday (bydayVal m)).1]; decide)]
          rw [getV_cons_eq (kv_until (untilVal x)).1, (kv_until (untilVal x)).2]]
      rw [Option.elim_some, parseUntilVal_untilVal hm100 hd100, Option.map_some']
    unfold formatFields
    rw [hfreq, Option.some_bind, hint, Option.some_bind, huof, Option.some_bind]
    rw [if_neg (by decide), if_pos rfl]
    unfold renderWeekly
    rw [hby, Option.some_bind, parseBydayVal_bydayVal hm h0, Option.some_bind,
      if_neg h0]

theorem formatRRule_weekly0 (u : Option Date)
    (hu : ∀ x, u = some x → x.m < 100 ∧ x.d < 100) :
    formatRRuleChars (serialize ⟨.weekly, 1, 0, u⟩) = none := by
  rw [formatRRule_serialize .weekly 0 u (by decide)]
  cases u with
  | none => decide
  | some x =>
    obtain ⟨hm100, hd100⟩ := hu x rfl
    show formatFields
      [tok "FREQ=" ++ freqU .weekly, tok "INTERVAL=1", tok "UNTIL=" ++ untilVal x] = _
    have hfreq : getV
        [tok "FREQ=" ++ freqU .weekly, tok "INTERVAL=1", tok "UNTIL=" ++ untilVal x]
        (tok "FREQ") = some (tok "WEEKLY") := rfl
    have hint : intervalOf
        [tok "FREQ=" ++ freqU .weekly, tok "INTERVAL=1", tok "UNTIL=" ++ untilVal x] =
        some 1 := rfl
    have huntil : getV
        [tok "FREQ=" ++ freqU .weekly, tok "INTERVAL=1", tok "UNTIL=" ++ untilVal x]
        (tok "UNTIL") = some (untilVal x) := by
      show getV [tok "UNTIL=" ++ untilVal x] (tok "UNTIL") = some (untilVal x)
      rw [getV_cons_eq (kv_until (untilVal x)).1, (kv_until (untilVal x)).2]
    have huof : untilOf
        [tok "FREQ=" ++ freqU .weekly, tok "INTERVAL=1", tok "UNTIL=" ++ untilVal x] =
        some (some x) := by
      unfold untilOf
      rw [huntil, Option.elim_some, parseUntilVal_untilVal hm100 hd100, Option.map_some']
    have hby : getV
        [tok "FREQ=" ++ freqU .weekly, tok "INTERVAL=1", tok "UNTIL=" ++ untilVal x]
        (tok "BYDAY") = none := by
      show getV [tok "UNTIL=" ++ untilVal x] (tok "BYDAY") = none
      rw [getV_cons_ne (by rw [(kv_until (untilVal x)).1]; decide)]
      rfl
    unfold formatFields
    rw [hfreq, Option.some_bind, hint, Option.some_bind, huof, Option.some_bind]
    rw [if_neg (by decide), if_pos rfl]
    unfold renderWeekly
    rw [hby, Option.none_bind]

theorem formatRRule_monthly0 (u : Option Date)
    (hu : ∀ x, u = some x → x.m < 100 ∧ x.d < 100) :
    formatRRuleChars (serialize ⟨.monthly, 1, 0, u⟩) = none := by
  rw [formatRRule_serialize .monthly 0 u (by decide)]
  cases u with
  | none => decide
  | some x =>
    obtain ⟨hm100, hd100⟩ := hu x rfl
    show formatFields
      [tok "FREQ=" ++ freqU .monthly, tok "INTERVAL=1", tok "UNTIL=" ++ untilVal x] = _
    have hfreq : getV
        [tok "FREQ=" ++ freqU .monthly, tok "INTERVAL=1", tok "UNTIL=" ++ untilVal x]
        (tok "FREQ") = some (tok "MONTHLY") := rfl
    have hint : intervalOf
        [tok "FREQ=" ++ freqU .monthly, tok "INTERVAL=1", tok "UNTIL=" ++ untilVal x] =
        some 1 := rfl
    have huntil : getV
        [tok "FREQ=" ++ freqU .monthly, tok "INTERVAL=1", tok "UNTIL=" ++ untilVal x]
        (tok "UNTIL") = some (untilVal x) := by
      show getV [tok "UNTIL=" ++ untilVal x] (tok "UNTIL") = some (untilVal x)
      rw [getV_cons_eq (kv_until (untilVal x)).1, (kv_until (untilVal x)).2]
    have huof : untilOf
        [tok "FREQ=" ++ freqU .monthly, tok "INTERVAL=1", tok "UNTIL=" ++ untilVal x] =
        some (some x) := by
      unfold untilOf
      rw [huntil, Option.elim_some, parseUntilVal_untilVal hm100 hd100, Option.map_some']
    have hbmd : getV
        [tok "FREQ=" ++ freqU .monthly, tok "INTERVAL=1", tok "UNTIL=" ++ untilVal x]
        (tok "BYMONTHDAY") = none := by
      show getV [tok "UNTIL=" ++ untilVal x] (tok "BYMONTHDAY") = none
      rw [getV_cons_ne (by rw [(kv_until (untilVal x)).1]; decide)]
      rfl
    have hby : getV
        [tok "FREQ=" ++ freqU .monthly, tok "INTERVAL=1", tok "UNTIL=" ++ untilVal x]
        (tok "BYDAY") = none := by
      show getV [tok "UNTIL=" ++ untilVal x] (tok "BYDAY") = none
      rw [getV_cons_ne (by rw [(kv_until (untilVal x)).1]; decide)]
      rfl
    unfold formatFields
    rw [hfreq, Option.some_bind, hint, Option.some_bind, huof, Option.some_bind]
    rw [if_neg (by decide), if_neg (by decide), if_pos rfl]
    unfold renderMonthly
    rw [hbmd, hby]

theorem formatRRule_yearly0 (u : Option Date)
    (hu : ∀ x, u = some x → x.m < 100 ∧ x.d < 100) :
    formatRRuleChars (serialize ⟨.yearly, 1, 0, u⟩) = none := by
  rw [formatRRule_serialize .yearly 0 u (by decide)]
  cases u with
  | none => decide
  | some x =>
    obtain ⟨hm100, hd100⟩ := hu x rfl
    show formatFields
      [tok "FREQ=" ++ freqU .yearly, tok "INTERVAL=1", tok "UNTIL=" ++ untilVal x] = _
    have hfreq : getV
        [tok "FREQ=" ++ freqU .yearly, tok "INTERVAL=1", tok "UNTIL=" ++ untilVal x]
        (tok "FREQ") = some (tok "YEARLY") := rfl
    have hint : intervalOf
        [tok "FREQ=" ++ freqU .yearly, tok "INTERVAL=1", tok "UNTIL=" ++ untilVal x] =
        some 1 := rfl
    have huntil : getV
        [tok "FREQ=" ++ freqU .yearly, tok "INTERVAL=1", tok "UNTIL=" ++ untilVal x]
        (tok "UNTIL") = some (untilVal x) := by
      show getV [tok "UNTIL=" ++ untilVal x] (tok "UNTIL") = some (untilVal x)
      rw [getV_cons_eq (kv_until (untilVal x)).1, (kv_until (untilVal x)).2]
    have huof : untilOf
        [tok "FREQ=" ++ freqU .yearly, tok "INTERVAL=1", tok "UNTIL=" ++ untilVal x] =
        some (some x) := by
      unfold untilOf
      rw [huntil, Option.elim_some, parseUntilVal_untilVal hm100 hd100, Option.map_some']
    have hbmd : getV
        [tok "FREQ=" ++ freqU .yearly, tok "INTERVAL=1", tok "UNTIL=" ++ untilVal x]
        (tok "BYMONTHDAY") = none := by
      show getV [tok "UNTIL=" ++ untilVal x] (tok "BYMONTHDAY") = none
      rw [getV_cons_ne (by rw [(kv_until (untilVal x)).1]; decide)]
      rfl
    have hby : getV
        [tok "FREQ=" ++ freqU .yearly, tok "INTERVAL=1", tok "UNTIL=" ++ untilVal x]
        (tok "BYDAY") = none := by
      show getV [tok "UNTIL=" ++ untilVal x] (tok "BYDAY") = none
      rw [getV_cons_ne (by rw [(kv_until (untilVal x)).1]; decide)]
      rfl
    have hbm : getV
        [tok "FREQ=" ++ freqU .yearly, tok "INTERVAL=1", tok "UNTIL=" ++ untilVal x]
        (tok "BYMONTH") = none := by
      show getV [tok "UNTIL=" ++ untilVal x] (tok "BYMONTH") = none
      rw [getV_cons_ne (by rw [(kv_until (untilVal x)).1]; decide)]
      rfl
    unfold formatFields
    rw [hfreq, Option.some_bind, hint, Option.some_bind, huof, Option.some_bind]
    rw [if_neg (by decide), if_neg (by decide), if_neg (by decide), if_pos rfl]
    unfold renderYearly
    rw [hbmd, hby, hbm]


theorem weekly_pack : ∀ m, m < 128 →
    (m = 0 ∨ parseBase ((ruleBaseToks .weekly 1 m).map clean) = some (mkRule .weekly m)) ∧
    (∀ t ∈ (ruleBaseToks .weekly 1 m).map clean,
      t ≠ [] ∧ (∀ c ∈ t, ¬ c = ' ') ∧ t ≠ tok "until" ∧ t ≠ tok "for" ∧ t ≠ tok "me" ∧
        t ≠ tok "im") := by decide

theorem dateClean_facts {x : Date} (hv : ValidDate x) :
    ∀ t ∈ (dateDispToks x).map clean,
      t ≠ [] ∧ (∀ c ∈ t, ¬ c = ' ') ∧ t ≠ tok "until" ∧ t ≠ tok "for" ∧ t ≠ tok "me" ∧
        t ≠ tok "im" := by
  obtain ⟨hm1, hm2, hd1, hd2⟩ := hv
  obtain ⟨hwds, hwdne, hwdns, hwd1, hwd2, hwd3, hwd4, hwd5⟩ :=
    wd_facts (weekday x) (weekday_lt x)
  obtain ⟨hmon, hmonne, hmonns, hm3, hm4, hm5, hm6⟩ := mon_facts x.m (by omega) hm1
  have hfd : charVal 'f' = none := by decide
  have hud : charVal 'u' = none := by decide
  have hmd : charVal 'm' = none := by decide
  have hid : charVal 'i' = none := by decide
  intro t ht
  rw [clean_dateDispToks] at ht
  simp only [List.mem_cons, List.not_mem_nil, or_false] at ht
  rcases ht with rfl | rfl | rfl | rfl
  · exact ⟨hwdne, hwdns, hwd3, hwd4, hwd2, hwd1⟩
  · refine ⟨hmonne, hmonns, hm5, hm6, hm4, ?_⟩
    have hall : ∀ m, m < 13 → 1 ≤ m → clean (monDisp m) ≠ tok "im" := by decide
    exact hall x.m (by omega) hm1
  · exact ⟨dec_ne_nil x.d, dec_no_space x.d,
      ne_of_digit_free (dec_all_digits x.d) hud (by decide),
      ne_of_digit_free (dec_all_digits x.d) hfd (by decide),
      ne_of_digit_free (dec_all_digits x.d) hmd (by decide),
      ne_of_digit_free (dec_all_digits x.d) hid (by decide)⟩
  · exact ⟨dec_ne_nil x.y, dec_no_space x.y,
      ne_of_digit_free (dec_all_digits x.y) hud (by decide),
      ne_of_digit_free (dec_all_digits x.y) hfd (by decide),
      ne_of_digit_free (dec_all_digits x.y) hmd (by decide),
      ne_of_digit_free (dec_all_digits x.y) hid (by decide)⟩

theorem ruleToks_facts {f : Freq} {m : Nat} {u : Option Date}
    (hm : m < 128)
    (hrule : ∀ t ∈ (ruleBaseToks f 1 m).map clean,
      t ≠ [] ∧ (∀ c ∈ t, ¬ c = ' ') ∧ t ≠ tok "until" ∧ t ≠ tok "for" ∧ t ≠ tok "me" ∧
        t ≠ tok "im")
    (hu : ∀ x, u = some x → ValidDate x) :
    ∀ t ∈ (ruleBaseToks f 1 m ++ untilToks u).map clean,
      t ≠ [] ∧ (∀ c ∈ t, ¬ c = ' ') ∧ t ≠ tok "me" ∧ t ≠ tok "im" := by
  intro t ht
  rw [List.map_append, List.mem_append] at ht
  rcases ht with ht | ht
  · obtain ⟨h1, h2, _, _, h5, h6⟩ := hrule t ht
    exact ⟨h1, h2, h5, h6⟩
  · cases hux : u with
    | none => rw [hux] at ht; simp [untilToks] at ht
    | some x =>
      rw [hux] at ht
      rw [show untilToks (some x) = tok "until" :: dateDispToks x from rfl,
        List.map_cons] at ht
      simp only [List.mem_cons] at ht
      rcases ht with rfl | ht
      · exact ⟨by decide, by decide, by decide, by decide⟩
      · obtain ⟨h1, h2, _, _, h5, h6⟩ := dateClean_facts (hu x hux) t ht
        exact ⟨h1, h2, h5, h6⟩

theorem normalize_ruleToks {f : Freq} {m : Nat} {u : Option Date} {h0 : List Char}
    (hm : m < 128)
    (hhead : ((ruleBaseToks f 1 m ++ untilToks u).map clean).head? = some h0)
    (hh0 : h0 ≠ tok "im")
    (hfacts : ∀ t ∈ (ruleBaseToks f 1 m ++ untilToks u).map clean,
      t ≠ [] ∧ (∀ c ∈ t, ¬ c = ' ') ∧ t ≠ tok "me" ∧ t ≠ tok "im") :
    normalize (String.mk (joinBy ' ' (ruleBaseToks f 1 m ++ untilToks u))) =
      (ruleBaseToks f 1 m ++ untilToks u).map clean := by
  unfold normalize
  rw [show (String.mk (joinBy ' ' (ruleBaseToks f 1 m ++ untilToks u))).data =
    joinBy ' ' (ruleBaseToks f 1 m ++ untilToks u) from rfl]
  rw [clean_joinBy ' ' rfl]
  rw [wordsBy_joinBy ' ' _ (fun t ht => ⟨(hfacts t ht).1, (hfacts t ht).2.1⟩)]
  refine stripCT_eq_self ?_ ?_
  · intro v hv
    rw [hhead] at hv
    cases hv
    exact hh0
  · intro v hv
    have hvm := List.mem_of_mem_getLast? hv
    intro he
    subst he
    exact (hfacts _ hvm).2.2.1 rfl

theorem parse_render_rule_daily (refd : Date) (u : Option Date)
    (hu : ∀ x, u = some x → ValidDate x) :
    RecurringEvent.parse refd
        (String.mk (joinBy ' ' (ruleBaseToks .daily 1 0 ++ untilToks u))) =
      .rrule (String.mk (serialize ⟨.daily, 1, 0, u⟩)) := by
  have hrule : ∀ t ∈ (ruleBaseToks .daily 1 0).map clean,
      t ≠ [] ∧ (∀ c ∈ t, ¬ c = ' ') ∧ t ≠ tok "until" ∧ t ≠ tok "for" ∧ t ≠ tok "me" ∧
        t ≠ tok "im" := by decide
  have hfacts := ruleToks_facts (by norm_num) hrule hu
  have hnorm := normalize_ruleToks (f := .daily) (m := 0) (u := u) (by norm_num)
    (show _ = some (clean (tok "daily")) from rfl) (by decide) hfacts
  apply parse_eq_of_recurring
  rw [hnorm]
  cases u with
  | none =>
    rw [show untilToks none = [] from rfl, List.append_nil]
    rw [show (ruleBaseToks .daily 1 0).map clean = [tok "daily"] from by decide]
    unfold parseRecurring
    rw [splitAtTok_none _ (by decide), splitAtTok_none _ (by decide)]
    simp only [Option.elim_none]
    decide
  | some x =>
    obtain ⟨hm1, hm2, hd1, hd2⟩ := hu x rfl
    rw [show untilToks (some x) = tok "until" :: dateDispToks x from rfl]
    rw [List.map_append, List.map_cons,
      show clean (tok "until") = tok "until" from by decide]
    unfold parseRecurring
    rw [splitAtTok_append _ _ (fun t ht => by
      have := hrule t ht
      exact this.2.2.1)]
    rw [Option.elim_some]
    unfold withUntil
    rw [show ((ruleBaseToks .daily 1 0).map clean) = [tok "daily"] from by decide]
    rw [show parseBase [tok "daily"] = some (mkRule .daily 0) from by decide]
    rw [Option.some_bind]
    have habs : parseAbs refd ((dateDispToks x).map clean) = some ⟨x, 0, 0, 0⟩ := by
      have h := parseAbs_render refd x 0 hm1 hm2 hd1 hd2 (by norm_num)
      rw [show timeDispTok 0 0 0 = [] from rfl, List.append_nil] at h
      exact h
    unfold parseDateOnly
    rw [habs, Option.map_some']
    rfl

theorem parse_render_rule_weekly (refd : Date) (m : Nat) (u : Option Date)
    (hm : m < 128) (h0 : m ≠ 0) (hu : ∀ x, u = some x → ValidDate x) :
    RecurringEvent.parse refd
        (String.mk (joinBy ' ' (ruleBaseToks .weekly 1 m ++ untilToks u))) =
      .rrule (String.mk (serialize ⟨.weekly, 1, m, u⟩)) := by
  have hrule := (weekly_pack m hm).2
  have hbase := ((weekly_pack m hm).1).resolve_left h0
  have hfacts := ruleToks_facts hm hrule hu
  have hnorm := normalize_ruleToks (f := .weekly) (m := m) (u := u) hm
    (show _ = some (clean (tok "every")) from rfl) (by decide) hfacts
  apply parse_eq_of_recurring
  rw [hnorm]
  cases u with
  | none =>
    rw [show untilToks none = [] from rfl, List.append_nil]
    unfold parseRecurring
    rw [splitAtTok_none _ (fun t ht => (hrule t ht).2.2.1),
      splitAtTok_none _ (fun t ht => (hrule t ht).2.2.2.1)]
    simp only [Option.elim_none]
    exact hbase
  | some x =>
    obtain ⟨hm1, hm2, hd1, hd2⟩ := hu x rfl
    rw [show untilToks (some x) = tok "until" :: dateDispToks x from rfl]
    rw [List.map_append, List.map_cons,
      show clean (tok "until") = tok "until" from by decide]
    unfold parseRecurring
    rw [splitAtTok_append _ _ (fun t ht => (hrule t ht).2.2.1)]
    rw [Option.elim_some]
    unfold withUntil
    rw [hbase, Option.some_bind]
    have habs : parseAbs refd ((dateDispToks x).map clean) = some ⟨x, 0, 0, 0⟩ := by
      have h := parseAbs_render refd x 0 hm1 hm2 hd1 hd2 (by norm_num)
      rw [show timeDispTok 0 0 0 = [] from rfl, List.append_nil] at h
      exact h
    unfold parseDateOnly
    rw [habs, Option.map_some']
    rfl


theorem dim_le (y m : Nat) : dim y m ≤ 31 := by
  unfold dim
  split_ifs <;> omega

/-- C4 (amended): round-trip idempotence of format∘parse holds for every input
whose parse outcome the formatter can render — absent, any timestamp, or a rule
whose serialized RRULE text the tolerant scan renders to English; the
fail-closed RRULE pass-through outcomes are excluded. -/
theorem c4_roundtrip_idempotent_on_renderable (refd : Date) (text : String)
    (hv : ValidDate refd)
    (hr : renderableB (RecurringEvent.parse refd text) = true) :
    RecurringEvent.format
        (RecurringEvent.parseOpt refd
          (RecurringEvent.format (RecurringEvent.parse refd text))) =
      RecurringEvent.format (RecurringEvent.parse refd text) := by
  cases hp : parseRecurring refd (normalize text) with
  | none =>
    have hparse := parse_eq_of_abs hp
    cases ha : parseAbs refd (normalize text) with
    | none =>
      rw [hparse, ha, Option.elim_none]
      rfl
    | some dt =>
      obtain ⟨hvd, hhlt, hmi, hss⟩ := parseAbs_inv hv ha
      rw [hparse, ha, Option.elim_some]
      obtain ⟨xd, hh, mi, ss⟩ := dt
      dsimp only at hvd hhlt hmi hss
      subst hmi
      subst hss
      obtain ⟨hm1, hm2, hd1, hd2⟩ := hvd
      rw [show RecurringEvent.format (.timestamp ⟨xd, hh, 0, 0⟩) =
        some (String.mk (joinBy ' ' (dateDispToks xd ++ timeDispTok hh 0 0))) from rfl]
      rw [show RecurringEvent.parseOpt refd (some (String.mk (joinBy ' '
        (dateDispToks xd ++ timeDispTok hh 0 0)))) = RecurringEvent.parse refd
        (String.mk (joinBy ' ' (dateDispToks xd ++ timeDispTok hh 0 0))) from rfl]
      rw [parse_render_timestamp refd xd hh hm1 hm2 hd1 hd2 hhlt]
      rfl
  | some r =>
    have hparse := parse_eq_of_recurring hp
    obtain ⟨hi, hb, huv, hw⟩ := parseRecurring_inv hv hp
    obtain ⟨f, i, m, u⟩ := r
    dsimp only at hi hb huv hw
    subst hi
    have hu100 : ∀ x, u = some x → x.m < 100 ∧ x.d < 100 := by
      intro x hx
      obtain ⟨a1, a2, a3, a4⟩ := huv x hx
      have := dim_le x.y x.m
      exact ⟨by omega, by omega⟩
    cases f with
    | daily =>
      have hm0 : m = 0 := hw (by decide)
      subst hm0
      rw [hparse]
      have hfmt : RecurringEvent.format (.rrule (String.mk (serialize ⟨.daily, 1, 0, u⟩))) =
          some (String.mk (joinBy ' ' (ruleBaseToks .daily 1 0 ++ untilToks u))) := by
        show (formatRRuleChars (serialize ⟨.daily, 1, 0, u⟩)).elim
          (some (String.mk (serialize ⟨.daily, 1, 0, u⟩)))
          (fun out => some (String.mk out)) = _
        rw [formatRRule_daily u hu100, Option.elim_some]
      rw [hfmt]
      rw [show RecurringEvent.parseOpt refd (some (String.mk (joinBy ' '
        (ruleBaseToks .daily 1 0 ++ untilToks u)))) = RecurringEvent.parse refd
        (String.mk (joinBy ' ' (ruleBaseToks .daily 1 0 ++ untilToks u))) from rfl]
      rw [parse_render_rule_daily refd u huv, hfmt]
    | weekly =>
      by_cases hm0 : m = 0
      · exfalso
        subst hm0
        rw [hparse] at hr
        rw [show renderableB (.rrule (String.mk (serialize ⟨.weekly, 1, 0, u⟩))) =
          (formatRRuleChars (serialize ⟨.weekly, 1, 0, u⟩)).isSome from rfl] at hr
        rw [formatRRule_weekly0 u hu100] at hr
        exact absurd hr (by decide)
      · rw [hparse]
        have hfmt : RecurringEvent.format
            (.rrule (String.mk (serialize ⟨.weekly, 1, m, u⟩))) =
            some (String.mk (joinBy ' ' (ruleBaseToks .weekly 1 m ++ untilToks u))) := by
          show (formatRRuleChars (serialize ⟨.weekly, 1, m, u⟩)).elim
            (some (String.mk (serialize ⟨.weekly, 1, m, u⟩)))
            (fun out => some (String.mk out)) = _
          rw [formatRRule_weekly m u hb hm0 hu100, Option.elim_some]
        rw [hfmt]
        rw [show RecurringEvent.parseOpt refd (some (String.mk (joinBy ' '
          (ruleBaseToks .weekly 1 m ++ untilToks u)))) = RecurringEvent.parse refd
          (String.mk (joinBy ' ' (ruleBaseToks .weekly 1 m ++ untilToks u))) from rfl]
        rw [parse_render_rule_weekly refd m u hb hm0 huv, hfmt]
    | monthly =>
      exfalso
      have hm0 : m = 0 := hw (by decide)
      subst hm0
      rw [hparse] at hr
      rw [show renderableB (.rrule (String.mk (serialize ⟨.monthly, 1, 0, u⟩))) =
        (formatRRuleChars (serialize ⟨.monthly, 1, 0, u⟩)).isSome from rfl] at hr
      rw [formatRRule_monthly0 u hu100] at hr
      exact absurd hr (by decide)
    | yearly =>
      exfalso
      have hm0 : m = 0 := hw (by decide)
      subst hm0
      rw [hparse] at hr
      rw [show renderableB (.rrule (String.mk (serialize ⟨.yearly, 1, 0, u⟩))) =
        (formatRRuleChars (serialize ⟨.yearly, 1, 0, u⟩)).isSome from rfl] at hr
      rw [formatRRule_yearly0 u hu100] at hr
      exact absurd hr (by decide)

/-- C4 witness: at reference clock 2010-01-01 the input "daily" satisfies both
hypotheses and round-trips. -/
theorem c4_roundtrip_witness :
    ValidDate ⟨2010, 1, 1⟩ ∧
    renderableB (RecurringEvent.parse ⟨2010, 1, 1⟩ "daily") = true ∧
    RecurringEvent.format
        (RecurringEvent.parseOpt ⟨2010, 1, 1⟩
          (RecurringEvent.format (RecurringEvent.parse ⟨2010, 1, 1⟩ "daily"))) =
      RecurringEvent.format (RecurringEvent.parse ⟨2010, 1, 1⟩ "daily") :=
  ⟨by decide, by decide,
    c4_roundtrip_idempotent_on_renderable ⟨2010, 1, 1⟩ "daily" (by decide) (by decide)⟩

/-- C4 counterexample: "monthly" parses to a bare-MONTHLY rule whose RRULE text
the formatter passes through unchanged (fail closed), and re-parsing that
RRULE text yields absent, so the claimed unconditional idempotence fails. -/
theorem c4_counterexample_monthly_passthrough :
    RecurringEvent.format
        (RecurringEvent.parseOpt ⟨2010, 1, 1⟩
          (RecurringEvent.format (RecurringEvent.parse ⟨2010, 1, 1⟩ "monthly"))) ≠
      RecurringEvent.format (RecurringEvent.parse ⟨2010, 1, 1⟩ "monthly") := by
  decide

end Recurrent
